import Mathlib

/-!
Verification of the Sudoku puzzle generator / constraint solver in
`src/utils/sudokuUtils.ts`.

Shallow embedding conventions:
* A square label such as `A1` (row letter `A`..`I`, column digit `1`..`9`)
  is encoded as the natural number `r * 9 + c` with `r, c ∈ [0, 9)`;
  the source's `squares = cross(rows, cols)` enumerates labels in exactly
  this row-major order, so `squares` becomes `List.range 81`.
* A concrete board (`number[][]`) is a `List (List Nat)`, indexed with
  `getD` (out-of-range reads default to `0`, matching the 9×9 usage).
* The candidate store `GridValues` (source: `{ [s: string]: string }`,
  e.g. `values['A1'] = "123"`) is a `List (List Nat)` of length 81; each
  cell holds the list of candidate digits in the source's string order.
* The mutually recursive `eliminate`/`assign` mutate a shared object in
  the source and signal contradiction with `null`; here they thread the
  store and return a `PRes` (`ok` / `contra`), with an explicit fuel
  counter standing for the JavaScript call-stack depth: fuel is consumed
  exactly once per `eliminate`/`assign` frame, while the `for` loops
  inside a frame are modelled by list recursions at constant fuel.
* `Math.random`-driven shuffles (`shuffleArray`) are modelled by passing
  the shuffled list / the per-call digit orders as explicit parameters.
-/

namespace Sudoku

/-! ### Topology (source lines 7-61): squares, unitlist, units, peers -/

/-- The 9 row units, in the source's order (`cross(r, cols)` for each row). -/
def rowUnits : List (List Nat) :=
  (List.range 9).map (fun r => (List.range 9).map (fun c => r * 9 + c))

/-- The 9 column units (`cross(rows, c)` for each column). -/
def colUnits : List (List Nat) :=
  (List.range 9).map (fun c => (List.range 9).map (fun r => r * 9 + c))

/-- The 9 box units (`cross(rs, cs)` for the row/column triples), in the
source's band-major order, each box row-major inside. -/
def boxUnits : List (List Nat) :=
  (List.range 3).flatMap (fun br =>
    (List.range 3).map (fun bc =>
      (List.range 3).flatMap (fun i =>
        (List.range 3).map (fun j => (3 * br + i) * 9 + (3 * bc + j)))))

/-- `unitlist`: rows, then columns, then boxes (source lines 22-41). -/
def unitlist : List (List Nat) := rowUnits ++ colUnits ++ boxUnits

/-- `squares = cross(rows, cols)`, i.e. ids `0..80` in row-major order. -/
def squares : List Nat := List.range 81

/-- `units[s] = unitlist.filter(u => u.includes(s))` (source line 46). -/
def units (s : Nat) : List (List Nat) := unitlist.filter (fun u => u.contains s)

/-- One step of JavaScript `Set.add`: append if not already present. -/
def addUnique (acc : List Nat) (x : Nat) : List Nat :=
  if acc.contains x then acc else acc ++ [x]

/-- `peers[s]`: all squares sharing a unit with `s`, excluding `s`, in the
source's insertion order (source lines 50-61). -/
def peers (s : Nat) : List Nat :=
  ((units s).flatMap (fun u => u.filter (fun s2 => s2 ≠ s))).foldl addUnique []

/-! ### Concrete boards -/

/-- A concrete 9×9 board, `number[][]` in the source. -/
abbrev Board := List (List Nat)

/-- `board[r][c]` with the defaulting read used throughout. -/
def cellGet (g : Board) (r c : Nat) : Nat := (g.getD r []).getD c 0

/-- Writing `board[r][c] = v`. -/
def setCell (g : Board) (r c v : Nat) : Board := g.set r ((g.getD r []).set c v)

/-! ### Candidate stores -/

/-- The digit string `"123456789"` as a list. -/
def digitsL : List Nat := [1, 2, 3, 4, 5, 6, 7, 8, 9]

/-- Norvig-style candidate store: cell `s` holds `values[s]`. -/
abbrev GridValues := List (List Nat)

/-- Read `values[s]`. -/
def getS (values : GridValues) (s : Nat) : List Nat := values.getD s []

/-- Total number of remaining candidates across the grid. -/
def countAll (values : GridValues) : Nat := (values.map List.length).sum

/-- Result of a propagation step: the source returns the updated store or
`null`; `out` marks exhaustion of the modelled call-stack budget. -/
inductive PRes where
  | out : PRes
  | contra : PRes
  | ok : GridValues → PRes
deriving DecidableEq, Repr

/-! ### `eliminate` / `assign` (source lines 89-142), fueled.

`elimF` is one `eliminate` frame, `assignF` one `assign` frame.
`elimListF` is the peer loop of rule (2), `unitsF` the unit loop of
rule (3), `elimDigitsF` the `other_values` loop inside `assign`. -/

mutual

def elimF : Nat → GridValues → Nat → Nat → PRes
  | 0, _, _, _ => .out
  | fuel + 1, values, s, d =>
    if (getS values s).contains d = false then .ok values
    else
      let values1 := values.set s ((getS values s).erase d)
      if (getS values1 s).length = 0 then .contra
      else
        let afterPeers :=
          if (getS values1 s).length = 1 then
            elimListF fuel values1 (peers s) ((getS values1 s).headD 0)
          else .ok values1
        match afterPeers with
        | .ok values2 => unitsF fuel values2 (units s) d
        | r => r
termination_by fuel values s d => (fuel, 0)

def elimListF : Nat → GridValues → List Nat → Nat → PRes
  | _, values, [], _ => .ok values
  | fuel, values, s2 :: rest, d =>
    match elimF fuel values s2 d with
    | .ok v2 => elimListF fuel v2 rest d
    | r => r
termination_by fuel values ss d => (fuel, ss.length + 1)

def unitsF : Nat → GridValues → List (List Nat) → Nat → PRes
  | _, values, [], _ => .ok values
  | fuel, values, u :: rest, d =>
    let dplaces := u.filter (fun s2 => (getS values s2).contains d)
    if dplaces.length = 0 then .contra
    else if dplaces.length = 1 then
      match assignF fuel values (dplaces.headD 0) d with
      | .ok v2 => unitsF fuel v2 rest d
      | r => r
    else unitsF fuel values rest d
termination_by fuel values us d => (fuel, us.length + 1)

def assignF : Nat → GridValues → Nat → Nat → PRes
  | 0, _, _, _ => .out
  | fuel + 1, values, s, d => elimDigitsF fuel values s ((getS values s).erase d)
termination_by fuel values s d => (fuel, 0)

def elimDigitsF : Nat → GridValues → Nat → List Nat → PRes
  | _, values, _, [] => .ok values
  | fuel, values, s, d2 :: rest =>
    match elimF fuel values s d2 with
    | .ok v2 => elimDigitsF fuel v2 s rest
    | r => r
termination_by fuel values s ds => (fuel, ds.length + 1)

end

/-- A single structurally recursive packaging of the same two mutually
recursive procedures (`true` = `eliminate` frame, `false` = `assign`
frame), with the three inner `for` loops factored out as callback-driven
helpers.  This definition computes by kernel reduction; it is proved
extensionally equal to `elimF`/`assignF` below, and the
`eliminate`/`assign` wrappers are defined on top of it. -/
def loopElim (f : GridValues → Nat → Nat → PRes) :
    GridValues → List Nat → Nat → PRes
  | values, [], _ => .ok values
  | values, s2 :: rest, d =>
    match f values s2 d with
    | .ok v2 => loopElim f v2 rest d
    | r => r

def loopUnits (g : GridValues → Nat → Nat → PRes) :
    GridValues → List (List Nat) → Nat → PRes
  | values, [], _ => .ok values
  | values, u :: rest, d =>
    let dplaces := u.filter (fun s2 => (getS values s2).contains d)
    if dplaces.length = 0 then .contra
    else if dplaces.length = 1 then
      match g values (dplaces.headD 0) d with
      | .ok v2 => loopUnits g v2 rest d
      | r => r
    else loopUnits g values rest d

def loopDigits (f : GridValues → Nat → Nat → PRes) :
    GridValues → Nat → List Nat → PRes
  | values, _, [] => .ok values
  | values, s, d2 :: rest =>
    match f values s d2 with
    | .ok v2 => loopDigits f v2 s rest
    | r => r

def propF : Nat → Bool → GridValues → Nat → Nat → PRes
  | 0, _, _, _, _ => .out
  | fuel + 1, true, values, s, d =>
    if (getS values s).contains d = false then .ok values
    else
      let values1 := values.set s ((getS values s).erase d)
      if (getS values1 s).length = 0 then .contra
      else
        let afterPeers :=
          if (getS values1 s).length = 1 then
            loopElim (propF fuel true) values1 (peers s)
              ((getS values1 s).headD 0)
          else .ok values1
        match afterPeers with
        | .ok values2 => loopUnits (propF fuel false) values2 (units s) d
        | r => r
  | fuel + 1, false, values, s, d =>
    loopDigits (propF fuel true) values s ((getS values s).erase d)

/-- `eliminate(values, s, d)` with a stack budget that always suffices
(proved below): `2 * countAll values + 1` frames. -/
def eliminate (values : GridValues) (s d : Nat) : Option GridValues :=
  match propF (2 * countAll values + 1) true values s d with
  | .ok v => some v
  | _ => none

/-- `assign(values, s, d)` with an always-sufficient stack budget. -/
def assign (values : GridValues) (s d : Nat) : Option GridValues :=
  match propF (2 * countAll values + 2) false values s d with
  | .ok v => some v
  | _ => none

/-! ### `parse_grid` (source lines 68-86) -/

/-- Initial store: every square starts with the full digit list. -/
def initValues : GridValues := List.replicate 81 digitsL

/-- The `r`/`c` double loop of `parse_grid`, in square-id order. -/
def parseGo : List Nat → Board → GridValues → Option GridValues
  | [], _, values => some values
  | s :: rest, board, values =>
    let digit := cellGet board (s / 9) (s % 9)
    if digit ≠ 0 then
      match assign values s digit with
      | some v2 => parseGo rest board v2
      | none => none
    else parseGo rest board values

/-- `parse_grid(board)`: initialize all squares with all digits, then
`assign` every pre-filled cell, failing on a contradiction. -/
def parse_grid (board : Board) : Option GridValues :=
  parseGo squares board initValues

/-! ### `find_min_square` and solution counting (source lines 145-157, 307-355) -/

/-- The scan loop of `find_min_square`, with the `minLen === 2` break. -/
def findMinGo : List Nat → GridValues → Nat → Option Nat → Option Nat
  | [], _, _, best => best
  | s :: rest, values, minLen, best =>
    let len := (getS values s).length
    if 1 < len ∧ len < minLen then
      if len = 2 then some s
      else findMinGo rest values len (some s)
    else findMinGo rest values minLen best

/-- `find_min_square`: unsolved square with the fewest possibilities. -/
def find_min_square (values : GridValues) : Option Nat :=
  findMinGo squares values 10 none

/-- The solved-check loop at the top of `searchCounter`. -/
def solvedAll (values : GridValues) : Bool :=
  squares.all (fun s => (getS values s).length = 1)

mutual

/-- One `searchCounter` frame: returns the "limit reached" boolean and
the updated closure counter `count` (`none` = fuel exhausted). -/
def searchCounterF : Nat → GridValues → Nat → Nat → Option (Bool × Nat)
  | 0, _, _, _ => none
  | fuel + 1, values, count, limit =>
    if solvedAll values then some (decide (count + 1 ≥ limit), count + 1)
    else
      match find_min_square values with
      | none => some (false, count)
      | some s => tryDigitsF fuel values s (getS values s) count limit
termination_by fuel values count limit => (fuel, 0)

/-- The `for (const d of values[s])` loop of `searchCounter`. -/
def tryDigitsF : Nat → GridValues → Nat → List Nat → Nat → Nat → Option (Bool × Nat)
  | _, _, _, [], count, _ => some (false, count)
  | fuel, values, s, d :: rest, count, limit =>
    match assign values s d with
    | none => tryDigitsF fuel values s rest count limit
    | some v2 =>
      match searchCounterF fuel v2 count limit with
      | none => none
      | some (true, count2) => some (true, count2)
      | some (false, count2) => tryDigitsF fuel values s rest count2 limit
termination_by fuel values s ds count limit => (fuel, ds.length + 1)

end

/-- `countSolutions(board, limit)`: parse, then run the counting search;
a contradiction during the initial parse means 0 solutions. -/
def countSolutions (board : Board) (limit : Nat) : Nat :=
  match parse_grid board with
  | none => 0
  | some values =>
    match searchCounterF (countAll values + 1) values 0 limit with
    | some (_, c) => c
    | none => 0

/-! ### `isValid` (source lines 218-247) -/

/-- `isValid(board, row, col, num)`: row scan, column scan, box scan. -/
def isValid (board : Board) (row col num : Nat) : Bool :=
  if (List.range 9).any (fun x => cellGet board row x = num) then false
  else if (List.range 9).any (fun x => cellGet board x col = num) then false
  else
    let startRow := row - row % 3
    let startCol := col - col % 3
    if (List.range 3).any (fun i =>
        (List.range 3).any (fun j =>
          cellGet board (i + startRow) (j + startCol) = num)) then false
    else true

/-! ### `createPuzzle` (source lines 359-428)

The call `shuffleArray([...squares])` is modelled by taking the shuffled
removal order as the explicit argument `removals`; `difficulty` and
`maxAttempts` keep their roles.  The working copy
`solvedBoard.map(row => [...row])` is value-equal to `solvedBoard`
in this pure model (the aliasing variant is modelled separately below). -/

/-- The removal loop: tentatively clear each listed square, keep the
removal only if the puzzle still has exactly one solution, and stop
early once enough cells are removed. Returns the working puzzle and
the removal count. -/
def removalLoop : List Nat → Nat → Board → Nat → Board × Nat
  | [], _, puzzle, removed => (puzzle, removed)
  | s :: rest, difficulty, puzzle, removed =>
    let r := s / 9
    let c := s % 9
    if cellGet puzzle r c = 0 then removalLoop rest difficulty puzzle removed
    else
      let originalValue := cellGet puzzle r c
      let puzzle1 := setCell puzzle r c 0
      let cnt := countSolutions puzzle1 2
      let puzzle2 := if cnt ≠ 1 then setCell puzzle1 r c originalValue else puzzle1
      let removed2 := if cnt ≠ 1 then removed + 1 - 1 else removed + 1
      if (81 - (removed2 : Int)) ≤ 81 - (difficulty : Int) then (puzzle2, removed2)
      else if removed2 ≥ difficulty then (puzzle2, removed2)
      else removalLoop rest difficulty puzzle2 removed2

/-- The puzzle state after the removal loop (before the final check). -/
def finalPuzzle (solvedBoard : Board) (removals : List Nat) (difficulty : Nat) :
    Board :=
  (removalLoop removals difficulty solvedBoard 0).1

/-- `createPuzzle(solvedBoard, difficulty, maxAttempts)`: run the removal
loop, then re-check uniqueness; return `null` unless the final count is
exactly 1.  `maxAttempts` is accepted exactly as in the source. -/
def createPuzzle (solvedBoard : Board) (removals : List Nat)
    (difficulty : Nat) (maxAttempts : Nat) : Option Board :=
  let _ := maxAttempts
  let puzzle := finalPuzzle solvedBoard removals difficulty
  if countSolutions puzzle 2 = 1 then some puzzle else none

/-! ### C4: `isValid` is exactly unit-membership of the digit -/

/-- The digit `d` appears in row `r` of `g` (spec side of C4). -/
def occursInRow (g : Board) (r d : Nat) : Prop := ∃ x, x < 9 ∧ cellGet g r x = d

/-- The digit `d` appears in column `c` of `g`. -/
def occursInCol (g : Board) (c d : Nat) : Prop := ∃ x, x < 9 ∧ cellGet g x c = d

/-- The digit `d` appears in the 3×3 box containing `(r, c)`. -/
def occursInBox (g : Board) (r c d : Nat) : Prop :=
  ∃ i, i < 3 ∧ ∃ j, j < 3 ∧ cellGet g (i + (r - r % 3)) (j + (c - c % 3)) = d

/-! ### C3: the puzzle only ever clears cells of the solved grid -/

/-- Pointwise subset relation: every cell of `p` is empty or agrees with
the corresponding cell of `q`. -/
def SubsetOf (p q : Board) : Prop :=
  ∀ r c, cellGet p r c = 0 ∨ cellGet p r c = cellGet q r c

/-- A concrete board used by several witnesses. -/
def zeroBoard : Board := List.replicate 9 (List.replicate 9 0)

/-- One mono/nonempty/length-preserving propagation segment. -/
def MStep (v v' : GridValues) : Prop :=
  (∀ t, (getS v' t).Sublist (getS v t)) ∧
  (∀ t, getS v t ≠ [] → getS v' t ≠ []) ∧
  v'.length = v.length

/-- Monotonicity + nonemptiness statement for one `eliminate` frame. -/
def MonoElim (n : Nat) : Prop :=
  ∀ v s d v', elimF n v s d = .ok v' → MStep v v'

/-- Same statement for the peer loop. -/
def MonoElimList (n : Nat) : Prop :=
  ∀ v ss d v', elimListF n v ss d = .ok v' → MStep v v'

/-- Same statement for the unit loop. -/
def MonoUnits (n : Nat) : Prop :=
  ∀ v us d v', unitsF n v us d = .ok v' → MStep v v'

/-- Same statement for one `assign` frame. -/
def MonoAssign (n : Nat) : Prop :=
  ∀ v s d v', assignF n v s d = .ok v' → MStep v v'

/-- Same statement for the `other_values` loop of `assign`. -/
def MonoDigits (n : Nat) : Prop :=
  ∀ v s ds v', elimDigitsF n v s ds = .ok v' → MStep v v'

/-- Sufficiency statements: with the indicated stack budget the functions
never report `out`. -/
def SuffElim (n : Nat) : Prop :=
  ∀ v s d, 2 * countAll v + 1 ≤ n → elimF n v s d ≠ .out

def SuffElimList (n : Nat) : Prop :=
  ∀ v ss d, 2 * countAll v + 1 ≤ n → elimListF n v ss d ≠ .out

def SuffUnits (n : Nat) : Prop :=
  ∀ v us d, 2 * countAll v + 2 ≤ n → unitsF n v us d ≠ .out

def SuffAssign (n : Nat) : Prop :=
  ∀ v s d, 2 * countAll v + 2 ≤ n → assignF n v s d ≠ .out

def SuffDigits (n : Nat) : Prop :=
  ∀ v s ds, 2 * countAll v + 1 ≤ n → elimDigitsF n v s ds ≠ .out

/-- A concrete candidate grid (every cell a nonempty duplicate-free
two-element subset of 1..9) whose propagation cascade nests deeper than
81 frames: each row is a cyclic chain of overlapping pairs, rows linked
by forced single-place assignments. -/
def cexValues : GridValues := [
  [2, 8], [8, 3], [3, 7], [7, 9], [9, 5], [5, 4], [4, 6], [6, 1], [1, 2],
  [7, 3], [3, 2], [2, 5], [5, 9], [9, 1], [1, 4], [4, 6], [6, 8], [8, 7],
  [4, 2], [2, 5], [5, 9], [9, 7], [7, 6], [6, 3], [3, 8], [8, 1], [1, 4],
  [8, 6], [6, 4], [4, 7], [7, 2], [2, 9], [9, 1], [1, 5], [5, 3], [3, 8],
  [6, 1], [1, 4], [4, 5], [5, 9], [9, 7], [7, 2], [2, 8], [8, 3], [3, 6],
  [9, 5], [5, 6], [6, 7], [7, 8], [8, 2], [2, 1], [1, 4], [4, 3], [3, 9],
  [7, 2], [2, 9], [9, 3], [3, 1], [1, 8], [8, 4], [4, 5], [5, 6], [6, 7],
  [8, 9], [9, 1], [1, 2], [2, 3], [3, 7], [7, 4], [4, 6], [6, 5], [5, 8],
  [4, 2], [2, 7], [7, 1], [1, 3], [3, 6], [6, 9], [9, 5], [5, 8], [8, 4]
]

/-- The store produced by eliminating digit 1 from square `A1` of the
fresh full store. -/
def elimW1 : GridValues := [2, 3, 4, 5, 6, 7, 8, 9] :: List.replicate 80 digitsL

/-- Sweep property of one propagation segment from `v` to `v'`: any cell
whose candidate list changed and ended as a singleton has its remaining
digit absent from all its peers in `v'`. -/
def SweepSeg (v v' : GridValues) : Prop :=
  ∀ t, getS v' t ≠ getS v t → (getS v' t).length = 1 →
    ∀ p ∈ peers t, (getS v' t).headD 0 ∉ getS v' p

/-- Sweep statements for the five propagation functions. -/
def SwElim (n : Nat) : Prop :=
  ∀ v s d v', elimF n v s d = .ok v' → (∀ t, (getS v t).Nodup) →
    SweepSeg v v'

def SwElimList (n : Nat) : Prop :=
  ∀ v ss d v', elimListF n v ss d = .ok v' → (∀ t, (getS v t).Nodup) →
    SweepSeg v v'

def SwUnits (n : Nat) : Prop :=
  ∀ v us d v', unitsF n v us d = .ok v' → (∀ t, (getS v t).Nodup) →
    SweepSeg v v'

def SwAssign (n : Nat) : Prop :=
  ∀ v s d v', assignF n v s d = .ok v' → (∀ t, (getS v t).Nodup) →
    SweepSeg v v'

def SwDigits (n : Nat) : Prop :=
  ∀ v s ds v', elimDigitsF n v s ds = .ok v' → (∀ t, (getS v t).Nodup) →
    SweepSeg v v'

/-- Every singleton cell is consistent with its peers. -/
def SingletonClean (v : GridValues) : Prop :=
  ∀ t e, getS v t = [e] → ∀ p ∈ peers t, e ∉ getS v p

/-- Invariant carried through `parse_grid`'s assignment loop. -/
def ParseInv (v : GridValues) : Prop := MStep initValues v ∧ SingletonClean v

/-! ### C2: `generateBoard` produces complete valid solved grids.

`shuffleArray` (source lines 250-256) draws on `Math.random`; the digit
order tried at each `solveSudoku` cell is therefore modelled by an
oracle `rand : Nat → List Nat` consumed at an advancing index, with the
hypothesis that every draw is a permutation of `[1..9]`. -/

/-- The board cell addressed by square id `s`. -/
def boardCell (b : Board) (s : Nat) : Nat := cellGet b (s / 9) (s % 9)

/-- The first-empty-cell double loop of `solveSudoku`, row major. -/
def findEmptyFrom (b : Board) (k : Nat) : Option (Nat × Nat) :=
  if k < 81 then
    if cellGet b (k / 9) (k % 9) = 0 then some (k / 9, k % 9)
    else findEmptyFrom b (k + 1)
  else none
termination_by 81 - k

def findEmpty (b : Board) : Option (Nat × Nat) := findEmptyFrom b 0

mutual

/-- One `solveSudoku` frame (source lines 259-279): find the first empty
cell and try the shuffled digits; threads the oracle index. -/
def solveSudokuF : Nat → (Nat → List Nat) → Nat → Board → Bool × Board × Nat
  | 0, _, k, b => (false, b, k)
  | fuel + 1, rand, k, b =>
    match findEmpty b with
    | none => (true, b, k)
    | some (i, j) => tryNumsF fuel rand (k + 1) b i j (rand k)
termination_by fuel rand k b => (fuel, 0)

/-- The `for num of numbersToTry` loop; a failing branch restores the
cell (functionally: continues from the unmodified board). -/
def tryNumsF : Nat → (Nat → List Nat) → Nat → Board → Nat → Nat → List Nat →
    Bool × Board × Nat
  | _, _, k, b, _, _, [] => (false, b, k)
  | fuel, rand, k, b, i, j, num :: rest =>
    if isValid b i j num then
      match solveSudokuF fuel rand k (setCell b i j num) with
      | (true, b2, k2) => (true, b2, k2)
      | (false, _, k2) => tryNumsF fuel rand k2 b i j rest
    else tryNumsF fuel rand k b i j rest
termination_by fuel rand k b i j nums => (fuel, nums.length + 1)

end

/-- `generateBoard()`: run the randomized backtracking solver on an
empty board and return the board (82 frames cover the 81 cells). -/
def generateBoard (rand : Nat → List Nat) : Board :=
  (solveSudokuF 82 rand 0 (List.replicate 9 (List.replicate 9 0))).2.1

/-- 9×9 shape of a board. -/
def boardShape (b : Board) : Prop := b.length = 9 ∧ ∀ row ∈ b, row.length = 9

/-- No unit contains the same nonzero digit at two distinct squares. -/
def noConf (b : Board) : Prop :=
  ∀ u ∈ unitlist, ∀ s1 ∈ u, ∀ s2 ∈ u, s1 ≠ s2 → boardCell b s1 ≠ 0 →
    boardCell b s1 ≠ boardCell b s2

/-- All cells are at most 9. -/
def cellsLe9 (b : Board) : Prop := ∀ s, s < 81 → boardCell b s ≤ 9

/-- No empty cell remains. -/
def completeB (b : Board) : Prop := ∀ s, s < 81 → boardCell b s ≠ 0

/-- Every cell of `b` is empty or agrees with `S`. -/
def agreesOn (b S : Board) : Prop :=
  ∀ s, s < 81 → boardCell b s = 0 ∨ boardCell b s = boardCell S s

/-- Number of empty cells. -/
def emptyCount (b : Board) : Nat :=
  (List.range 81).countP (fun s => boardCell b s == 0)

/-- A fixed complete valid solution, used to steer the completeness
argument for the empty board. -/
def solvedBase : Board :=
  [[1, 2, 3, 4, 5, 6, 7, 8, 9],
   [4, 5, 6, 7, 8, 9, 1, 2, 3],
   [7, 8, 9, 1, 2, 3, 4, 5, 6],
   [2, 3, 4, 5, 6, 7, 8, 9, 1],
   [5, 6, 7, 8, 9, 1, 2, 3, 4],
   [8, 9, 1, 2, 3, 4, 5, 6, 7],
   [3, 4, 5, 6, 7, 8, 9, 1, 2],
   [6, 7, 8, 9, 1, 2, 3, 4, 5],
   [9, 1, 2, 3, 4, 5, 6, 7, 8]]

/-- The box unit containing cell `(i, j)`. -/
def boxU (i j : Nat) : List Nat :=
  (List.range 3).flatMap (fun a =>
    (List.range 3).map (fun b2 => (3 * (i / 3) + a) * 9 + (3 * (j / 3) + b2)))

/-! ### Heap model of board aliasing (source lines 307-355 and 376-409)

Rows are mutable objects: the heap is the store of row objects and a
board value is a list of row addresses.  `solvedBoard.map(row => [...row])`
allocates fresh rows; `puzzle[r][c] = v` mutates the row object that
`puzzle[r]` points to. -/

abbrev Heap := List (List Nat)

/-- Dereference a board: row `r` is the heap object at address `ref[r]`. -/
def readBoard (h : Heap) (ref : List Nat) : Board :=
  ref.map (fun i => h.getD i [])

/-- `board[r][c] = v` through the heap: update the row object addressed
by `ref[r]` in place. -/
def setCellH (h : Heap) (ref : List Nat) (r c v : Nat) : Heap :=
  h.set (ref.getD r 0) ((h.getD (ref.getD r 0) []).set c v)

/-- `solvedBoard.map(row => [...row])`: allocate a fresh copy of every
row at the end of the heap; the new board points at the copies. -/
def copyBoard (h : Heap) (ref : List Nat) : Heap × List Nat :=
  (h ++ readBoard h ref, List.range' h.length ref.length)

/-- `parse_grid` through the heap: the board is only dereferenced (the
source assigns only to the fresh `values` object), so the heap part is
returned unchanged. -/
def parse_gridH (h : Heap) (ref : List Nat) : Heap × Option GridValues :=
  (h, parse_grid (readBoard h ref))

/-- `countSolutions` through the heap: parse the dereferenced board and
count; no statement writes to the board. -/
def countSolutionsH (h : Heap) (ref : List Nat) (limit : Nat) : Heap × Nat :=
  ((parse_gridH h ref).1,
    match (parse_gridH h ref).2 with
    | none => 0
    | some values =>
      match searchCounterF (countAll values + 1) values 0 limit with
      | some (_, c) => c
      | none => 0)

/-- The removal loop of `createPuzzle`, writing through the puzzle
reference into the heap. -/
def removalLoopH : List Nat → Nat → Heap → List Nat → Nat → Heap × Nat
  | [], _, h, _, removed => (h, removed)
  | s :: rest, difficulty, h, ref, removed =>
    let r := s / 9
    let c := s % 9
    if cellGet (readBoard h ref) r c = 0 then
      removalLoopH rest difficulty h ref removed
    else
      let originalValue := cellGet (readBoard h ref) r c
      let h1 := setCellH h ref r c 0
      let cnt := (countSolutionsH h1 ref 2).2
      let h2 := if cnt ≠ 1 then setCellH h1 ref r c originalValue else h1
      let removed2 := if cnt ≠ 1 then removed + 1 - 1 else removed + 1
      if (81 - (removed2 : Int)) ≤ 81 - (difficulty : Int) then (h2, removed2)
      else if removed2 ≥ difficulty then (h2, removed2)
      else removalLoopH rest difficulty h2 ref removed2

/-- `createPuzzle` through the heap: copy the solved board, run the
removal loop on the copy, re-check uniqueness (a pure read). -/
def createPuzzleH (h : Heap) (solvedRef : List Nat) (removals : List Nat)
    (difficulty : Nat) (maxAttempts : Nat) : Heap × Option (List Nat) :=
  let _ := maxAttempts
  let alloc := copyBoard h solvedRef
  let res := removalLoopH removals difficulty alloc.1 alloc.2 0
  if (countSolutionsH res.1 alloc.2 2).2 = 1 then (res.1, some alloc.2)
  else (res.1, none)

/-! ### Theorems -/

/-- The peer loop agrees with `elimListF`. -/
theorem loopElim_eq (n : Nat)
    (hIH : ∀ v s d, propF n true v s d = elimF n v s d) :
    ∀ (ss : List Nat) (v : GridValues) (d : Nat),
      loopElim (propF n true) v ss d = elimListF n v ss d := by
  intro ss
  induction ss with
  | nil => intro v d; simp [loopElim, elimListF]
  | cons s2 rest ih =>
    intro v d
    simp only [loopElim, hIH]
    cases he : elimF n v s2 d with
    | ok v2 => simp only [elimListF, he]; exact ih v2 d
    | contra => simp only [elimListF, he]
    | out => simp only [elimListF, he]

/-- The unit loop agrees with `unitsF`. -/
theorem loopUnits_eq (n : Nat)
    (hIH : ∀ v s d, propF n false v s d = assignF n v s d) :
    ∀ (us : List (List Nat)) (v : GridValues) (d : Nat),
      loopUnits (propF n false) v us d = unitsF n v us d := by
  intro us
  induction us with
  | nil => intro v d; simp [loopUnits, unitsF]
  | cons u rest ih =>
    intro v d
    simp only [loopUnits, unitsF, hIH]
    by_cases h0 : (u.filter (fun s2 => (getS v s2).contains d)).length = 0
    · rw [if_pos h0, if_pos h0]
    · rw [if_neg h0, if_neg h0]
      by_cases h1 : (u.filter (fun s2 => (getS v s2).contains d)).length = 1
      · rw [if_pos h1, if_pos h1]
        cases ha : assignF n v
            ((u.filter (fun s2 => (getS v s2).contains d)).headD 0) d with
        | ok v2 => exact ih v2 d
        | contra => rfl
        | out => rfl
      · rw [if_neg h1, if_neg h1]
        exact ih v d

/-- The `other_values` loop agrees with `elimDigitsF`. -/
theorem loopDigits_eq (n : Nat)
    (hIH : ∀ v s d, propF n true v s d = elimF n v s d) :
    ∀ (ds : List Nat) (v : GridValues) (s : Nat),
      loopDigits (propF n true) v s ds = elimDigitsF n v s ds := by
  intro ds
  induction ds with
  | nil => intro v s; simp [loopDigits, elimDigitsF]
  | cons d2 rest ih =>
    intro v s
    simp only [loopDigits, hIH]
    cases he : elimF n v s d2 with
    | ok v2 => simp only [elimDigitsF, he]; exact ih v2 s
    | contra => simp only [elimDigitsF, he]
    | out => simp only [elimDigitsF, he]

/-- The structural evaluator agrees with the two recursive procedures. -/
theorem propF_eq : ∀ n, (∀ v s d, propF n true v s d = elimF n v s d) ∧
    (∀ v s d, propF n false v s d = assignF n v s d) := by
  intro n
  induction n with
  | zero =>
    constructor <;> intro v s d <;> simp [propF, elimF, assignF]
  | succ n ihn =>
    constructor
    · intro v s d
      simp only [propF, elimF]
      rw [loopElim_eq n ihn.1]
      cases hap : (if (getS (v.set s ((getS v s).erase d)) s).length = 1 then
          elimListF n (v.set s ((getS v s).erase d)) (peers s)
            ((getS (v.set s ((getS v s).erase d)) s).headD 0)
        else PRes.ok (v.set s ((getS v s).erase d))) with
      | ok v2 => simp only [loopUnits_eq n ihn.2]
      | contra => rfl
      | out => rfl
    · intro v s d
      simp only [propF, assignF]
      exact loopDigits_eq n ihn.1 ((getS v s).erase d) v s

theorem eliminate_eq_elimF (values : GridValues) (s d : Nat) :
    eliminate values s d =
      match elimF (2 * countAll values + 1) values s d with
      | .ok v => some v
      | _ => none := by
  unfold eliminate
  rw [(propF_eq (2 * countAll values + 1)).1 values s d]

theorem assign_eq_assignF (values : GridValues) (s d : Nat) :
    assign values s d =
      match assignF (2 * countAll values + 2) values s d with
      | .ok v => some v
      | _ => none := by
  unfold assign
  rw [(propF_eq (2 * countAll values + 2)).2 values s d]

/-! ### Basic list lemmas used throughout -/

theorem getD_set_ne {α : Type} (d : α) :
    ∀ (l : List α) (i j : Nat) (x : α), i ≠ j → (l.set i x).getD j d = l.getD j d := by
  intro l
  induction l with
  | nil => intro i j x _; simp [List.set]
  | cons a t ih =>
    intro i j x hij
    cases i with
    | zero =>
      cases j with
      | zero => exact absurd rfl hij
      | succ j' => simp [List.set, List.getD]
    | succ i' =>
      cases j with
      | zero => simp [List.set, List.getD]
      | succ j' =>
        simp only [List.set, List.getD_cons_succ]
        exact ih i' j' x (fun h => hij (by omega))

theorem getD_set_self {α : Type} (d : α) :
    ∀ (l : List α) (i : Nat) (x : α), i < l.length → (l.set i x).getD i d = x := by
  intro l
  induction l with
  | nil => intro i x h; simp at h
  | cons a t ih =>
    intro i x h
    cases i with
    | zero => simp [List.set, List.getD]
    | succ i' =>
      simp only [List.set, List.getD_cons_succ]
      exact ih i' x (by simpa using h)

theorem set_of_ge {α : Type} :
    ∀ (l : List α) (i : Nat) (x : α), l.length ≤ i → l.set i x = l := by
  intro l
  induction l with
  | nil => intro i x _; simp [List.set]
  | cons a t ih =>
    intro i x h
    cases i with
    | zero => simp at h
    | succ i' => simp only [List.set]; rw [ih i' x (by simpa using h)]

theorem getD_ge {α : Type} (d : α) :
    ∀ (l : List α) (i : Nat), l.length ≤ i → l.getD i d = d := by
  intro l
  induction l with
  | nil => intro i _; simp [List.getD]
  | cons a t ih =>
    intro i h
    cases i with
    | zero => simp at h
    | succ i' => simp only [List.getD_cons_succ]; exact ih i' (by simpa using h)

/-- Reading a cell of `setCell g r c v`: either it is the written cell or
the read is unchanged. -/
theorem cellGet_setCell (g : Board) (r c v r' c' : Nat) :
    cellGet (setCell g r c v) r' c' = cellGet g r' c' ∨
      (r' = r ∧ c' = c ∧
        cellGet (setCell g r c v) r' c' = v) ∨
      (r' = r ∧ c' = c ∧ cellGet (setCell g r c v) r' c' = cellGet g r' c') := by
  unfold cellGet setCell
  by_cases hr : r' = r
  · subst hr
    by_cases hrl : r' < g.length
    · rw [getD_set_self _ g r' _ hrl]
      by_cases hc : c' = c
      · subst hc
        by_cases hcl : c' < (g.getD r' []).length
        · right; left; exact ⟨rfl, rfl, getD_set_self _ _ _ _ hcl⟩
        · right; right
          refine ⟨rfl, rfl, ?_⟩
          rw [set_of_ge _ _ _ (by omega)]
      · left; exact getD_set_ne _ _ _ _ _ (fun h => hc h.symm)
    · left; rw [set_of_ge g r' _ (by omega)]
  · left; rw [getD_set_ne _ g r r' _ (fun h => hr h.symm)]

theorem cellGet_setCell_of_ne (g : Board) (r c v r' c' : Nat)
    (h : ¬(r' = r ∧ c' = c)) :
    cellGet (setCell g r c v) r' c' = cellGet g r' c' := by
  rcases cellGet_setCell g r c v r' c' with h1 | ⟨hr, hc, _⟩ | ⟨hr, hc, h3⟩
  · exact h1
  · exact absurd ⟨hr, hc⟩ h
  · exact absurd ⟨hr, hc⟩ h

/-- C4: for every concrete grid `g`, row `r`, column `c` and digit `d`,
`isValid g r c d` returns `false` iff `d` already occurs in row `r`, in
column `c`, or in the 3×3 box containing `(r, c)`; in particular it
returns `false` when the target cell itself already holds `d`. -/
theorem isValid_false_iff (g : Board) (r c d : Nat) :
    isValid g r c d = false ↔
      occursInRow g r d ∨ occursInCol g c d ∨ occursInBox g r c d := by
  unfold isValid occursInRow occursInCol occursInBox
  simp only [List.any_eq_true, List.mem_range, decide_eq_true_eq]
  split_ifs with h1 h2 h3
  · simp only [true_iff]; exact Or.inl h1
  · simp only [true_iff]; exact Or.inr (Or.inl h2)
  · simp only [true_iff]; exact Or.inr (Or.inr h3)
  · simp only [Bool.true_eq_false, false_iff]
    rintro (h | h | h)
    · exact h1 h
    · exact h2 h
    · exact h3 h

/-! ### C10: `createPuzzle` never reads `maxAttempts` -/

/-- C10: with the same solved board, removal order (the same sequence of
random choices) and difficulty, `createPuzzle` returns identical results
for any two values of `maxAttempts`: the parameter is never read. -/
theorem createPuzzle_maxAttempts_irrelevant
    (solvedBoard : Board) (removals : List Nat) (difficulty : Nat)
    (m1 m2 : Nat) :
    createPuzzle solvedBoard removals difficulty m1 =
      createPuzzle solvedBoard removals difficulty m2 := rfl

/-! ### C1: every returned puzzle has exactly one solution -/

/-- C1: `createPuzzle` performs the final uniqueness check itself: it
returns exactly `some` of the loop's puzzle when `countSolutions` at
limit 2 equals 1, and `none` (Failure) whenever that count is not 1;
hence every returned puzzle `p` satisfies `countSolutions p 2 = 1`. -/
theorem createPuzzle_unique (solvedBoard : Board) (removals : List Nat)
    (difficulty maxAttempts : Nat) :
    (createPuzzle solvedBoard removals difficulty maxAttempts =
      if countSolutions (finalPuzzle solvedBoard removals difficulty) 2 = 1
      then some (finalPuzzle solvedBoard removals difficulty) else none) ∧
    (createPuzzle solvedBoard removals difficulty maxAttempts).all
      (fun p => countSolutions p 2 == 1) = true := by
  constructor
  · rfl
  · unfold createPuzzle
    by_cases h : countSolutions (finalPuzzle solvedBoard removals difficulty) 2 = 1
    · simp [h, Option.all]
    · simp [h, Option.all]

theorem SubsetOf.refl (p : Board) : SubsetOf p p := fun _ _ => Or.inr rfl

/-- One `removalLoop` step preserves `SubsetOf · solved`. -/
theorem removalLoop_subset (solved : Board) :
    ∀ (rm : List Nat) (difficulty : Nat) (p : Board) (rmCount : Nat),
      SubsetOf p solved →
      SubsetOf (removalLoop rm difficulty p rmCount).1 solved := by
  intro rm
  induction rm with
  | nil => intro difficulty p rmCount hp; exact hp
  | cons s rest ih =>
    intro difficulty p rmCount hp
    simp only [removalLoop]
    by_cases h0 : cellGet p (s / 9) (s % 9) = 0
    · rw [if_pos h0]
      exact ih difficulty p rmCount hp
    · rw [if_neg h0]
      have hp1 : SubsetOf (setCell p (s / 9) (s % 9) 0) solved := by
        intro r c
        rcases cellGet_setCell p (s / 9) (s % 9) 0 r c with h | ⟨_, _, h⟩ | ⟨_, _, h⟩
        · rw [h]; exact hp r c
        · rw [h]; exact Or.inl rfl
        · rw [h]; exact hp r c
      have hpR : SubsetOf
          (setCell (setCell p (s / 9) (s % 9) 0) (s / 9) (s % 9)
            (cellGet p (s / 9) (s % 9))) solved := by
        intro r c
        rcases cellGet_setCell (setCell p (s / 9) (s % 9) 0) (s / 9) (s % 9)
          (cellGet p (s / 9) (s % 9)) r c with h | ⟨hr, hc, h⟩ | ⟨_, _, h⟩
        · rw [h]; exact hp1 r c
        · rw [h, hr, hc]; exact hp (s / 9) (s % 9)
        · rw [h]; exact hp1 r c
      split
      · split
        · exact hpR
        · split
          · exact hpR
          · exact ih difficulty _ _ hpR
      · split
        · exact hp1
        · split
          · exact hp1
          · exact ih difficulty _ _ hp1

/-- C3: at every step of the removal loop (any prefix of the removal
order) every cell of the working puzzle is either empty or holds exactly
the digit of the solved grid at that position, and any puzzle returned
by `createPuzzle` satisfies the same cell-wise subset property. -/
theorem createPuzzle_subset (solved : Board) (removals : List Nat)
    (difficulty maxAttempts n r c : Nat) :
    (cellGet (finalPuzzle solved (removals.take n) difficulty) r c = 0 ∨
      cellGet (finalPuzzle solved (removals.take n) difficulty) r c =
        cellGet solved r c) ∧
    (createPuzzle solved removals difficulty maxAttempts).all
      (fun p => (cellGet p r c == 0) || (cellGet p r c == cellGet solved r c)) =
      true := by
  constructor
  · exact removalLoop_subset solved (removals.take n) difficulty solved 0
      (SubsetOf.refl solved) r c
  · unfold createPuzzle
    by_cases h : countSolutions (finalPuzzle solved removals difficulty) 2 = 1
    · simp only [h, if_pos rfl, Option.all]
      rcases removalLoop_subset solved removals difficulty solved 0
        (SubsetOf.refl solved) r c with h0 | h0
      · simp [finalPuzzle] at h0 ⊢; simp [h0]
      · simp [finalPuzzle] at h0 ⊢; simp [h0]
    · simp [h, Option.all]

/-! ### C6: `countSolutions` stays within `[0, limit]` -/

/-- Counter invariant for one `searchCounter` frame: starting strictly
below the limit, the counter never decreases, never exceeds the limit,
and a `false` return means the limit is still not reached. -/
theorem searchCounterF_invariant :
    ∀ fuel : Nat,
      (∀ (values : GridValues) (count limit : Nat) (b : Bool) (c : Nat),
        count < limit → searchCounterF fuel values count limit = some (b, c) →
        count ≤ c ∧ c ≤ limit ∧ (b = false → c < limit)) ∧
      (∀ (ds : List Nat) (values : GridValues) (s count limit : Nat) (b : Bool)
          (c : Nat),
        count < limit → tryDigitsF fuel values s ds count limit = some (b, c) →
        count ≤ c ∧ c ≤ limit ∧ (b = false → c < limit)) := by
  intro fuel
  induction fuel with
  | zero =>
    constructor
    · intro values count limit b c _ h
      simp [searchCounterF] at h
    · intro ds
      induction ds with
      | nil =>
        intro values s count limit b c hlt h
        simp only [tryDigitsF, Option.some.injEq, Prod.mk.injEq] at h
        obtain ⟨hb, hc⟩ := h
        subst hc
        exact ⟨Nat.le_refl count, Nat.le_of_lt hlt, fun _ => hlt⟩
      | cons d rest ihds =>
        intro values s count limit b c hlt h
        cases has : assign values s d with
        | none =>
          simp only [tryDigitsF, has] at h
          exact ihds values s count limit b c hlt h
        | some v2 =>
          simp only [tryDigitsF, has, searchCounterF] at h
          exact Option.noConfusion h
  | succ n ihn =>
    have hsc : ∀ (values : GridValues) (count limit : Nat) (b : Bool) (c : Nat),
        count < limit → searchCounterF (n + 1) values count limit = some (b, c) →
        count ≤ c ∧ c ≤ limit ∧ (b = false → c < limit) := by
      intro values count limit b c hlt h
      simp only [searchCounterF] at h
      by_cases hsolved : solvedAll values = true
      · rw [if_pos hsolved] at h
        simp only [Option.some.injEq, Prod.mk.injEq] at h
        obtain ⟨hb, hc⟩ := h
        subst hb; subst hc
        refine ⟨Nat.le_succ count, hlt, ?_⟩
        intro hfalse
        have := of_decide_eq_false hfalse
        omega
      · rw [if_neg hsolved] at h
        cases hfm : find_min_square values with
        | none =>
          rw [hfm] at h
          simp only [Option.some.injEq, Prod.mk.injEq] at h
          obtain ⟨hb, hc⟩ := h
          subst hb; subst hc
          exact ⟨Nat.le_refl count, Nat.le_of_lt hlt, fun _ => hlt⟩
        | some s =>
          rw [hfm] at h
          exact ihn.2 (getS values s) values s count limit b c hlt h
    refine ⟨hsc, ?_⟩
    intro ds
    induction ds with
    | nil =>
      intro values s count limit b c hlt h
      simp only [tryDigitsF, Option.some.injEq, Prod.mk.injEq] at h
      obtain ⟨hb, hc⟩ := h
      subst hb; subst hc
      exact ⟨Nat.le_refl count, Nat.le_of_lt hlt, fun _ => hlt⟩
    | cons d rest ihds =>
      intro values s count limit b c hlt h
      cases has : assign values s d with
      | none =>
        simp only [tryDigitsF, has] at h
        exact ihds values s count limit b c hlt h
      | some v2 =>
        cases hrec : searchCounterF (n + 1) v2 count limit with
        | none =>
          simp only [tryDigitsF, has, hrec] at h
          exact Option.noConfusion h
        | some bc =>
          obtain ⟨b2, c2⟩ := bc
          simp only [tryDigitsF, has, hrec] at h
          cases b2 with
          | true =>
            simp only [Option.some.injEq, Prod.mk.injEq] at h
            obtain ⟨hb, hc⟩ := h
            have hmain := hsc v2 count limit true c2 hlt hrec
            refine ⟨by omega, by omega, ?_⟩
            intro hf
            rw [← hb] at hf
            exact Bool.noConfusion hf
          | false =>
            have h2 := hsc v2 count limit false c2 hlt hrec
            have hc2lt : c2 < limit := h2.2.2 rfl
            have h3 := ihds values s c2 limit b c hc2lt h
            exact ⟨Nat.le_trans h2.1 h3.1, h3.2.1, h3.2.2⟩

/-- C6: for every board and every limit at least 1, `countSolutions`
returns a count in `[0, limit]`, and returns 0 when the initial parse of
the board yields a contradiction. -/
theorem countSolutions_range (board : Board) (limit : Nat) (h : 1 ≤ limit) :
    0 ≤ countSolutions board limit ∧ countSolutions board limit ≤ limit ∧
      (parse_grid board = none → countSolutions board limit = 0) := by
  refine ⟨Nat.zero_le _, ?_, ?_⟩
  · have haux : ∀ o : Option (Bool × Nat),
        (∀ b c, o = some (b, c) → c ≤ limit) →
        (match o with | some (_, c) => c | none => 0) ≤ limit := by
      intro o ho
      cases o with
      | none => exact Nat.zero_le limit
      | some bc =>
        obtain ⟨b, c⟩ := bc
        exact ho b c rfl
    unfold countSolutions
    cases hpg : parse_grid board with
    | none => exact Nat.zero_le limit
    | some values =>
      refine haux (searchCounterF (countAll values + 1) values 0 limit) ?_
      intro b c hsc
      exact ((searchCounterF_invariant (countAll values + 1)).1 values 0 limit
        b c (Nat.lt_of_lt_of_le Nat.zero_lt_one h) hsc).2.1
  · intro hpg
    unfold countSolutions
    rw [hpg]

/-- Witness for C6 at a concrete board and limit. -/
theorem countSolutions_range_witness :
    1 ≤ 2 ∧
      (0 ≤ countSolutions zeroBoard 2 ∧ countSolutions zeroBoard 2 ≤ 2 ∧
        (parse_grid zeroBoard = none → countSolutions zeroBoard 2 = 0)) :=
  ⟨by decide, countSolutions_range zeroBoard 2 (by decide)⟩

/-! ### Monotonicity and nonemptiness preservation of propagation -/

/-- `getS` after writing cell `s`. -/
theorem getS_set_self (v : GridValues) (s : Nat) (l : List Nat)
    (h : s < v.length) : getS (v.set s l) s = l :=
  getD_set_self [] v s l h

theorem getS_set_ne (v : GridValues) (s t : Nat) (l : List Nat) (h : s ≠ t) :
    getS (v.set s l) t = getS v t :=
  getD_set_ne [] v s t l h

/-- The pure removal step only shrinks candidate lists (cell-wise sublist). -/
theorem getS_set_erase_sublist (v : GridValues) (s d t : Nat) :
    (getS (v.set s ((getS v s).erase d)) t).Sublist (getS v t) := by
  by_cases hts : t = s
  · subst hts
    by_cases hl : t < v.length
    · rw [getS_set_self v t _ hl]
      exact List.erase_sublist d (getS v t)
    · rw [set_of_ge v t _ (by omega)]
  · rw [getS_set_ne v s t _ (fun h => hts h.symm)]

/-- Composition of two mono/nonempty segments. -/
theorem monoComp {v v1 v2 : GridValues}
    (h1 : MStep v v1) (h2 : MStep v1 v2) : MStep v v2 :=
  ⟨fun t => (h2.1 t).trans (h1.1 t), fun t h => h2.2.1 t (h1.2.1 t h),
    h2.2.2.trans h1.2.2⟩

theorem monoRefl {v : GridValues} : MStep v v :=
  ⟨fun _ => List.Sublist.refl _, fun _ h => h, rfl⟩

/-- Monotonicity, nonemptiness and length preservation of all
propagation functions: a successful call never grows any cell's
candidate list, never empties a nonempty cell, and keeps the store's
shape. -/
theorem monoAll : ∀ n, MonoElim n ∧ MonoElimList n ∧ MonoUnits n ∧
    MonoAssign n ∧ MonoDigits n := by
  intro n
  induction n with
  | zero =>
    refine ⟨?_, ?_, ?_, ?_, ?_⟩
    · intro v s d v' h
      simp only [elimF] at h
      exact PRes.noConfusion h
    · intro v ss d v' h
      cases ss with
      | nil =>
        simp only [elimListF, PRes.ok.injEq] at h
        subst h; exact monoRefl
      | cons s2 rest =>
        simp only [elimListF, elimF] at h
        exact PRes.noConfusion h
    · intro v us d
      induction us with
      | nil =>
        intro v' h
        simp only [unitsF, PRes.ok.injEq] at h
        subst h; exact monoRefl
      | cons u rest ihus =>
        intro v' h
        simp only [unitsF] at h
        by_cases h0 : (u.filter (fun s2 => (getS v s2).contains d)).length = 0
        · rw [if_pos h0] at h; exact PRes.noConfusion h
        · rw [if_neg h0] at h
          by_cases h1 : (u.filter (fun s2 => (getS v s2).contains d)).length = 1
          · rw [if_pos h1] at h
            simp only [assignF] at h
            exact PRes.noConfusion h
          · rw [if_neg h1] at h
            exact ihus v' h
    · intro v s d v' h
      simp only [assignF] at h
      exact PRes.noConfusion h
    · intro v s ds v' h
      cases ds with
      | nil =>
        simp only [elimDigitsF, PRes.ok.injEq] at h
        subst h; exact monoRefl
      | cons d2 rest =>
        simp only [elimDigitsF, elimF] at h
        exact PRes.noConfusion h
  | succ n ihn =>
    have hElim : MonoElim (n + 1) := by
      intro v s d v' h
      simp only [elimF] at h
      by_cases hcd : (getS v s).contains d = false
      · rw [if_pos hcd] at h
        simp only [PRes.ok.injEq] at h
        subst h; exact monoRefl
      · rw [if_neg hcd] at h
        by_cases hz : (getS (v.set s ((getS v s).erase d)) s).length = 0
        · rw [if_pos hz] at h; exact PRes.noConfusion h
        · rw [if_neg hz] at h
          have hstep : MStep v (v.set s ((getS v s).erase d)) := by
            refine ⟨fun t => getS_set_erase_sublist v s d t, ?_, List.length_set v s _⟩
            intro t ht
            by_cases hts : t = s
            · subst hts
              intro hnil
              exact hz (by rw [hnil]; rfl)
            · rwa [getS_set_ne v s t _ (fun hh => hts hh.symm)]
          by_cases hl1 : (getS (v.set s ((getS v s).erase d)) s).length = 1
          · rw [if_pos hl1] at h
            cases hsw : elimListF n (v.set s ((getS v s).erase d)) (peers s)
                ((getS (v.set s ((getS v s).erase d)) s).headD 0) with
            | ok v2 =>
              rw [hsw] at h
              exact monoComp hstep
                (monoComp (ihn.2.1 _ _ _ _ hsw) (ihn.2.2.1 _ _ _ _ h))
            | contra => rw [hsw] at h; exact PRes.noConfusion h
            | out => rw [hsw] at h; exact PRes.noConfusion h
          · rw [if_neg hl1] at h
            exact monoComp hstep (ihn.2.2.1 _ _ _ _ h)
    have hAssign : MonoAssign (n + 1) := by
      intro v s d v' h
      simp only [assignF] at h
      exact ihn.2.2.2.2 _ _ _ _ h
    refine ⟨hElim, ?_, ?_, hAssign, ?_⟩
    · intro v ss d
      induction ss generalizing v with
      | nil =>
        intro v' h
        simp only [elimListF, PRes.ok.injEq] at h
        subst h; exact monoRefl
      | cons s2 rest ihss =>
        intro v' h
        cases he : elimF (n + 1) v s2 d with
        | ok v2 =>
          simp only [elimListF, he] at h
          exact monoComp (hElim _ _ _ _ he) (ihss v2 v' h)
        | contra =>
          simp only [elimListF, he] at h
          exact PRes.noConfusion h
        | out =>
          simp only [elimListF, he] at h
          exact PRes.noConfusion h
    · intro v us d
      induction us generalizing v with
      | nil =>
        intro v' h
        simp only [unitsF, PRes.ok.injEq] at h
        subst h; exact monoRefl
      | cons u rest ihus =>
        intro v' h
        simp only [unitsF] at h
        by_cases h0 : (u.filter (fun s2 => (getS v s2).contains d)).length = 0
        · rw [if_pos h0] at h; exact PRes.noConfusion h
        · rw [if_neg h0] at h
          by_cases h1 : (u.filter (fun s2 => (getS v s2).contains d)).length = 1
          · rw [if_pos h1] at h
            cases ha : assignF (n + 1) v
                ((u.filter (fun s2 => (getS v s2).contains d)).headD 0) d with
            | ok v2 =>
              rw [ha] at h
              exact monoComp (hAssign _ _ _ _ ha) (ihus v2 v' h)
            | contra => rw [ha] at h; exact PRes.noConfusion h
            | out => rw [ha] at h; exact PRes.noConfusion h
          · rw [if_neg h1] at h
            exact ihus v v' h
    · intro v s ds
      induction ds generalizing v with
      | nil =>
        intro v' h
        simp only [elimDigitsF, PRes.ok.injEq] at h
        subst h; exact monoRefl
      | cons d2 rest ihds =>
        intro v' h
        cases he : elimF (n + 1) v s d2 with
        | ok v2 =>
          simp only [elimDigitsF, he] at h
          exact monoComp (hElim _ _ _ _ he) (ihds v2 v' h)
        | contra =>
          simp only [elimDigitsF, he] at h
          exact PRes.noConfusion h
        | out =>
          simp only [elimDigitsF, he] at h
          exact PRes.noConfusion h

/-! ### Fuel sufficiency: the stack budget `2 * countAll + O(1)` always
suffices, so `eliminate`/`assign` terminate on every store. -/

theorem contains_true_iff_mem (l : List Nat) (a : Nat) :
    l.contains a = true ↔ a ∈ l := by
  simp

theorem getS_ne_nil_lt (v : GridValues) (s : Nat) (h : getS v s ≠ []) :
    s < v.length := by
  by_contra hge
  exact h (getD_ge [] v s (by omega))

theorem countAll_set :
    ∀ (v : GridValues) (s : Nat) (l : List Nat), s < v.length →
      countAll (v.set s l) + (getS v s).length = countAll v + l.length := by
  intro v
  induction v with
  | nil => intro s l h; simp at h
  | cons a t ih =>
    intro s l h
    cases s with
    | zero =>
      simp only [List.set, countAll, List.map, List.sum_cons, getS, List.getD]
      simp [List.getD]
      omega
    | succ s' =>
      simp only [List.set, countAll, List.map, List.sum_cons, getS,
        List.getD_cons_succ]
      have := ih s' l (by simpa using h)
      simp only [countAll, getS] at this
      omega

/-- Removing a present digit strictly decreases the candidate total. -/
theorem countAll_erase_lt (v : GridValues) (s d : Nat)
    (h : (getS v s).contains d = true) :
    countAll (v.set s ((getS v s).erase d)) < countAll v := by
  have hmem : d ∈ getS v s := (contains_true_iff_mem _ _).1 h
  have hne : getS v s ≠ [] := by
    intro hnil; rw [hnil] at hmem; exact List.not_mem_nil d hmem
  have hlt := getS_ne_nil_lt v s hne
  have heq := countAll_set v s ((getS v s).erase d) hlt
  have hel : ((getS v s).erase d).length = (getS v s).length - 1 :=
    List.length_erase_of_mem hmem
  have hpos : 0 < (getS v s).length := List.length_pos.2 hne
  omega

/-- `MStep` bounds the candidate total. -/
theorem countAll_le_of_MStep {v v' : GridValues} (h : MStep v v') :
    countAll v' ≤ countAll v := by
  have key : ∀ (a b : GridValues), a.length = b.length →
      (∀ t, (getS a t).Sublist (getS b t)) → countAll a ≤ countAll b := by
    intro a
    induction a with
    | nil => intro b _ _; simp [countAll]
    | cons x xs ih =>
      intro b hlen hsub
      cases b with
      | nil => simp at hlen
      | cons y ys =>
        have h0 : x.Sublist y := by
          have := hsub 0
          simpa [getS, List.getD] using this
        have hrest : countAll xs ≤ countAll ys := by
          refine ih ys (by simpa using hlen) ?_
          intro t
          have := hsub (t + 1)
          simpa [getS, List.getD_cons_succ] using this
        simp only [countAll, List.map, List.sum_cons]
        have := h0.length_le
        simp only [countAll] at hrest
        omega
  exact key v' v h.2.2 h.1

theorem suffAll : ∀ n, SuffElim n ∧ SuffElimList n ∧ SuffUnits n ∧
    SuffAssign n ∧ SuffDigits n := by
  intro n
  induction n with
  | zero =>
    refine ⟨?_, ?_, ?_, ?_, ?_⟩ <;> intro v
    · intro s d hle; omega
    · intro ss d hle; omega
    · intro us d hle; omega
    · intro s d hle; omega
    · intro s ds hle; omega
  | succ n ihn =>
    have hElim : SuffElim (n + 1) := by
      intro v s d hle
      simp only [elimF]
      by_cases hcd : (getS v s).contains d = false
      · rw [if_pos hcd]; intro hh; exact PRes.noConfusion hh
      · rw [if_neg hcd]
        have hcd' : (getS v s).contains d = true := by
          cases hb : (getS v s).contains d
          · exact absurd hb hcd
          · rfl
        have hdec := countAll_erase_lt v s d hcd'
        by_cases hz : (getS (v.set s ((getS v s).erase d)) s).length = 0
        · rw [if_pos hz]; intro hh; exact PRes.noConfusion hh
        · rw [if_neg hz]
          by_cases hl1 : (getS (v.set s ((getS v s).erase d)) s).length = 1
          · rw [if_pos hl1]
            cases hsw : elimListF n (v.set s ((getS v s).erase d)) (peers s)
                ((getS (v.set s ((getS v s).erase d)) s).headD 0) with
            | ok v2 =>
              have hm := (monoAll n).2.1 _ _ _ _ hsw
              have hle2 : 2 * countAll v2 + 2 ≤ n := by
                have := countAll_le_of_MStep hm
                omega
              intro hh
              exact ihn.2.2.1 v2 (units s) d hle2 hh
            | contra => intro hh; exact PRes.noConfusion hh
            | out =>
              exact absurd hsw (ihn.2.1 _ (peers s) _ (by omega))
          · rw [if_neg hl1]
            intro hh
            exact ihn.2.2.1 _ (units s) d (by omega) hh
    have hAssign : SuffAssign (n + 1) := by
      intro v s d hle
      simp only [assignF]
      intro hh
      exact ihn.2.2.2.2 v s _ (by omega) hh
    refine ⟨hElim, ?_, ?_, hAssign, ?_⟩
    · intro v ss d
      induction ss generalizing v with
      | nil =>
        intro hle hh
        simp only [elimListF] at hh
        exact PRes.noConfusion hh
      | cons s2 rest ihss =>
        intro hle
        simp only [elimListF]
        cases he : elimF (n + 1) v s2 d with
        | ok v2 =>
          have hm := (monoAll (n + 1)).1 _ _ _ _ he
          have := countAll_le_of_MStep hm
          exact ihss v2 (by omega)
        | contra => intro hh; exact PRes.noConfusion hh
        | out => exact absurd he (hElim v s2 d hle)
    · intro v us d
      induction us generalizing v with
      | nil =>
        intro hle hh
        simp only [unitsF] at hh
        exact PRes.noConfusion hh
      | cons u rest ihus =>
        intro hle
        simp only [unitsF]
        by_cases h0 : (u.filter (fun s2 => (getS v s2).contains d)).length = 0
        · rw [if_pos h0]; intro hh; exact PRes.noConfusion hh
        · rw [if_neg h0]
          by_cases h1 : (u.filter (fun s2 => (getS v s2).contains d)).length = 1
          · rw [if_pos h1]
            cases ha : assignF (n + 1) v
                ((u.filter (fun s2 => (getS v s2).contains d)).headD 0) d with
            | ok v2 =>
              have hm := (monoAll (n + 1)).2.2.2.1 _ _ _ _ ha
              have := countAll_le_of_MStep hm
              exact ihus v2 (by omega)
            | contra => intro hh; exact PRes.noConfusion hh
            | out => exact absurd ha (hAssign v _ d hle)
          · rw [if_neg h1]
            exact ihus v hle
    · intro v s ds
      induction ds generalizing v with
      | nil =>
        intro hle hh
        simp only [elimDigitsF] at hh
        exact PRes.noConfusion hh
      | cons d2 rest ihds =>
        intro hle
        simp only [elimDigitsF]
        cases he : elimF (n + 1) v s d2 with
        | ok v2 =>
          have hm := (monoAll (n + 1)).1 _ _ _ _ he
          have := countAll_le_of_MStep hm
          exact ihds v2 (by omega)
        | contra => intro hh; exact PRes.noConfusion hh
        | out => exact absurd he (hElim v s d2 (by omega))

/-- `eliminate` always terminates within its stated budget. -/
theorem elimF_never_out (v : GridValues) (s d : Nat) :
    elimF (2 * countAll v + 1) v s d ≠ .out :=
  (suffAll (2 * countAll v + 1)).1 v s d (Nat.le_refl _)

/-- `assign` always terminates within its stated budget. -/
theorem assignF_never_out (v : GridValues) (s d : Nat) :
    assignF (2 * countAll v + 2) v s d ≠ .out :=
  (suffAll (2 * countAll v + 2)).2.2.2.1 v s d (Nat.le_refl _)

/-! ### Postconditions of propagation: the eliminated digit stays gone -/

/-- After a successful `eliminate` frame the digit is absent from the
target cell (candidate lists are duplicate-free). -/
theorem elimF_postcond (n : Nat) (v : GridValues) (s d : Nat)
    (v' : GridValues) (h : elimF n v s d = .ok v')
    (hnd : (getS v s).Nodup) : d ∉ getS v' s := by
  cases n with
  | zero =>
    simp only [elimF] at h
    exact PRes.noConfusion h
  | succ n =>
    simp only [elimF] at h
    by_cases hcd : (getS v s).contains d = false
    · rw [if_pos hcd] at h
      simp only [PRes.ok.injEq] at h
      subst h
      intro hmem
      rw [(contains_true_iff_mem _ _).2 hmem] at hcd
      exact Bool.noConfusion hcd
    · rw [if_neg hcd] at h
      have hcd' : (getS v s).contains d = true := by
        cases hb : (getS v s).contains d
        · exact absurd hb hcd
        · rfl
      have hmem : d ∈ getS v s := (contains_true_iff_mem _ _).1 hcd'
      have hne : getS v s ≠ [] := by
        intro hnil; rw [hnil] at hmem; exact List.not_mem_nil d hmem
      have hslen := getS_ne_nil_lt v s hne
      have hg1 : getS (v.set s ((getS v s).erase d)) s = (getS v s).erase d :=
        getS_set_self v s _ hslen
      have hout1 : d ∉ getS (v.set s ((getS v s).erase d)) s := by
        rw [hg1]
        intro hin
        exact ((List.Nodup.mem_erase_iff hnd).1 hin).1 rfl
      by_cases hz : (getS (v.set s ((getS v s).erase d)) s).length = 0
      · rw [if_pos hz] at h; exact PRes.noConfusion h
      · rw [if_neg hz] at h
        by_cases hl1 : (getS (v.set s ((getS v s).erase d)) s).length = 1
        · rw [if_pos hl1] at h
          cases hsw : elimListF n (v.set s ((getS v s).erase d)) (peers s)
              ((getS (v.set s ((getS v s).erase d)) s).headD 0) with
          | ok v2 =>
            rw [hsw] at h
            have h1 := (monoAll n).2.1 _ _ _ _ hsw
            have h2 := (monoAll n).2.2.1 _ _ _ _ h
            intro hin
            exact hout1 ((h1.1 s).subset ((h2.1 s).subset hin))
          | contra => rw [hsw] at h; exact PRes.noConfusion h
          | out => rw [hsw] at h; exact PRes.noConfusion h
        · rw [if_neg hl1] at h
          have h2 := (monoAll n).2.2.1 _ _ _ _ h
          intro hin
          exact hout1 ((h2.1 s).subset hin)

/-- After a successful peer sweep the swept digit is absent from every
listed square. -/
theorem elimListF_postcond (n : Nat) :
    ∀ (ss : List Nat) (v : GridValues) (d : Nat) (v' : GridValues),
      elimListF n v ss d = .ok v' → (∀ t, (getS v t).Nodup) →
      ∀ p ∈ ss, d ∉ getS v' p := by
  intro ss
  induction ss with
  | nil => intro v d v' _ _ p hp; exact absurd hp (List.not_mem_nil p)
  | cons s2 rest ih =>
    intro v d v' h hnd p hp
    cases he : elimF n v s2 d with
    | ok v2 =>
      simp only [elimListF, he] at h
      have hm2 := (monoAll n).1 _ _ _ _ he
      have hmr := (monoAll n).2.1 _ _ _ _ h
      have hnd2 : ∀ t, (getS v2 t).Nodup := fun t => (hnd t).sublist (hm2.1 t)
      rcases List.mem_cons.1 hp with hps | hpr
      · subst hps
        intro hin
        exact elimF_postcond n v p d v2 he (hnd p) ((hmr.1 p).subset hin)
      · exact ih v2 d v' h hnd2 p hpr
    | contra =>
      simp only [elimListF, he] at h
      exact PRes.noConfusion h
    | out =>
      simp only [elimListF, he] at h
      exact PRes.noConfusion h

/-- After the `other_values` loop of `assign`, every listed digit is
absent from the target cell. -/
theorem elimDigitsF_postcond (n : Nat) :
    ∀ (ds : List Nat) (v : GridValues) (s : Nat) (v' : GridValues),
      elimDigitsF n v s ds = .ok v' → (∀ t, (getS v t).Nodup) →
      ∀ e ∈ ds, e ∉ getS v' s := by
  intro ds
  induction ds with
  | nil => intro v s v' _ _ e he; exact absurd he (List.not_mem_nil e)
  | cons d2 rest ih =>
    intro v s v' h hnd e hde
    cases he : elimF n v s d2 with
    | ok v2 =>
      simp only [elimDigitsF, he] at h
      have hm2 := (monoAll n).1 _ _ _ _ he
      have hmr := (monoAll n).2.2.2.2 _ _ _ _ h
      have hnd2 : ∀ t, (getS v2 t).Nodup := fun t => (hnd t).sublist (hm2.1 t)
      rcases List.mem_cons.1 hde with hd2 | hdr
      · subst hd2
        intro hin
        exact elimF_postcond n v s e v2 he (hnd s) ((hmr.1 s).subset hin)
      · exact ih v2 s v' h hnd2 e hdr
    | contra =>
      simp only [elimDigitsF, he] at h
      exact PRes.noConfusion h
    | out =>
      simp only [elimDigitsF, he] at h
      exact PRes.noConfusion h

/-- A nonempty duplicate-free list whose elements all equal `d` is `[d]`. -/
theorem singleton_of_all_eq (l : List Nat) (d : Nat) (hne : l ≠ [])
    (hall : ∀ x ∈ l, x = d) (hnd : l.Nodup) : l = [d] := by
  cases l with
  | nil => exact absurd rfl hne
  | cons a t =>
    have ha : a = d := hall a (List.mem_cons_self a t)
    subst ha
    cases t with
    | nil => rfl
    | cons b t2 =>
      have hb : b = a := hall b (List.mem_cons.2 (Or.inr (List.mem_cons_self b t2)))
      subst hb
      exact absurd (List.mem_cons_self b t2) (List.nodup_cons.1 hnd).1

/-- A successful `assign` pins the target cell to exactly the assigned
digit (and the digit must have been a candidate). -/
theorem assignF_success (n : Nat) (v : GridValues) (s d : Nat)
    (v' : GridValues) (h : assignF n v s d = .ok v')
    (hnd : ∀ t, (getS v t).Nodup) (hne : getS v s ≠ []) :
    d ∈ getS v s ∧ getS v' s = [d] := by
  cases n with
  | zero =>
    simp only [assignF] at h
    exact PRes.noConfusion h
  | succ n =>
    simp only [assignF] at h
    have hpost := elimDigitsF_postcond n ((getS v s).erase d) v s v' h hnd
    have hm := (monoAll n).2.2.2.2 _ _ _ _ h
    have hne' : getS v' s ≠ [] := hm.2.1 s hne
    have hall : ∀ x ∈ getS v' s, x = d := by
      intro x hx
      by_contra hxd
      have hxv : x ∈ getS v s := (hm.1 s).subset hx
      have hxe : x ∈ (getS v s).erase d := (List.mem_erase_of_ne hxd).2 hxv
      exact hpost x hxe hx
    have hnd' : (getS v' s).Nodup := (hnd s).sublist (hm.1 s)
    have heq := singleton_of_all_eq (getS v' s) d hne' hall hnd'
    refine ⟨?_, heq⟩
    have : d ∈ getS v' s := by rw [heq]; exact List.mem_cons_self d []
    exact (hm.1 s).subset this

/-! ### C7: `eliminate` is monotone and idempotent -/

/-- C7: on any duplicate-free candidate grid, a successful
`eliminate(values, s, d)` never adds a candidate to any cell (every
resulting cell list is a sub-collection of the cell's previous list),
and repeating the same elimination on the result is a no-op returning
the grid unchanged. -/
theorem eliminate_monotone_idempotent (values : GridValues) (s d : Nat)
    (v' : GridValues) (hnd : ∀ t, (getS values t).Nodup)
    (h : eliminate values s d = some v') :
    (∀ t, (getS v' t).Sublist (getS values t)) ∧
    (∀ t x, x ∈ getS v' t → x ∈ getS values t) ∧
    eliminate v' s d = some v' := by
  rw [eliminate_eq_elimF] at h
  cases he : elimF (2 * countAll values + 1) values s d with
  | ok w =>
    rw [he] at h
    simp only [Option.some.injEq] at h
    have h2 : v' = w := h.symm
    subst h2
    have hm := (monoAll (2 * countAll values + 1)).1 _ _ _ _ he
    have hpost : d ∉ getS v' s :=
      elimF_postcond _ values s d v' he (hnd s)
    refine ⟨hm.1, fun t x hx => (hm.1 t).subset hx, ?_⟩
    have hcf : (getS v' s).contains d = false := by
      cases hb : (getS v' s).contains d
      · rfl
      · exact absurd ((contains_true_iff_mem _ _).1 hb) hpost
    rw [eliminate_eq_elimF]
    have : elimF (2 * countAll v' + 1) v' s d = .ok v' := by
      simp only [elimF]
      rw [if_pos hcf]
    rw [this]
  | contra => rw [he] at h; exact Option.noConfusion h
  | out => rw [he] at h; exact Option.noConfusion h

/-! ### C8: termination, and the true stack-depth bound -/

/-- C8 (amended form): the mutually recursive `eliminate`/`assign`
propagation terminates on every candidate grid, cell and digit — a stack
budget of `2 * countAll values + 2` frames is never exhausted, because
every `eliminate` frame that recurses first strictly reduces the total
number of remaining candidates. -/
theorem propagation_terminates :
    (∀ (values : GridValues) (s d : Nat),
      elimF (2 * countAll values + 1) values s d ≠ .out) ∧
    (∀ (values : GridValues) (s d : Nat),
      assignF (2 * countAll values + 2) values s d ≠ .out) :=
  ⟨elimF_never_out, assignF_never_out⟩

set_option maxRecDepth 100000 in
/-- Counterexample to C8 as stated: on `cexValues`, eliminating digit 8
from square `A1` needs 86 nested `eliminate`/`assign` frames (the run
completes, with a contradiction result, only when 86 frames are allowed;
an 85-frame stack is exhausted).  Since `elimF` consumes exactly one
unit of fuel per `eliminate`/`assign` frame, the recursion depth of this
single call exceeds 85 > 81. -/
theorem elim_depth_exceeds_81 :
    elimF 85 cexValues 0 8 = .out ∧ elimF 86 cexValues 0 8 = .contra := by
  constructor
  · rw [← (propF_eq 85).1 cexValues 0 8]
    decide
  · rw [← (propF_eq 86).1 cexValues 0 8]
    decide

/-! ### C7 witness -/

theorem getD_replicate {α : Type} (d a : α) :
    ∀ (n t : Nat), (List.replicate n a).getD t d = if t < n then a else d := by
  intro n
  induction n with
  | zero => intro t; simp [List.replicate]
  | succ n ih =>
    intro t
    cases t with
    | zero => simp [List.replicate]
    | succ t' =>
      simp only [List.replicate, List.getD_cons_succ, ih t']
      by_cases h : t' < n
      · rw [if_pos h, if_pos (by omega)]
      · rw [if_neg h, if_neg (by omega)]

theorem initValues_nodup : ∀ t, (getS initValues t).Nodup := by
  intro t
  unfold getS initValues
  rw [getD_replicate]
  by_cases h : t < 81
  · rw [if_pos h]; decide
  · rw [if_neg h]; exact List.nodup_nil

set_option maxRecDepth 10000 in
/-- Witness for C7: a concrete successful elimination on the full store,
with the hypotheses discharged and the theorem applied. -/
theorem eliminate_monotone_idempotent_witness :
    (∀ t, (getS initValues t).Nodup) ∧
    ((∀ t, (getS elimW1 t).Sublist (getS initValues t)) ∧
      (∀ t x, x ∈ getS elimW1 t → x ∈ getS initValues t) ∧
      eliminate elimW1 0 1 = some elimW1) :=
  ⟨initValues_nodup,
    eliminate_monotone_idempotent initValues 0 1 elimW1 initValues_nodup
      (by decide)⟩

/-! ### The singleton-sweep property: a cell that collapses to a
singleton during propagation has had its digit eliminated from all of
its peers by rule (2). -/

/-- A list of length 1 is the singleton of its head. -/
theorem len1_eq (l : List Nat) (h : l.length = 1) : l = [l.headD 0] := by
  cases l with
  | nil => simp at h
  | cons a t =>
    cases t with
    | nil => rfl
    | cons b t2 => simp at h

/-- A nonempty sublist of a singleton is that singleton. -/
theorem sublist_singleton_eq (l : List Nat) (a : Nat)
    (h : l.Sublist [a]) (hne : l ≠ []) : l = [a] := by
  cases l with
  | nil => exact absurd rfl hne
  | cons x t =>
    have hx : x = a := by
      have : x ∈ [a] := h.subset (List.mem_cons_self x t)
      simpa using this
    subst hx
    have hlen := h.length_le
    cases t with
    | nil => rfl
    | cons b t2 => simp at hlen

/-- The pure removal step is an `MStep` whenever it does not empty the
cell. -/
theorem MStep_set_erase (v : GridValues) (s d : Nat)
    (hz : ¬(getS (v.set s ((getS v s).erase d)) s).length = 0) :
    MStep v (v.set s ((getS v s).erase d)) := by
  refine ⟨fun t => getS_set_erase_sublist v s d t, ?_, List.length_set v s _⟩
  intro t ht
  by_cases hts : t = s
  · subst hts
    intro hnil
    exact hz (by rw [hnil]; rfl)
  · rwa [getS_set_ne v s t _ (fun hh => hts hh.symm)]

theorem sweepSeg_refl (v : GridValues) : SweepSeg v v := by
  intro t hne _ _ _
  exact absurd rfl hne

/-- Composition of sweep segments. -/
theorem sweepComp {v v1 v2 : GridValues} (hB : MStep v1 v2)
    (hLA : SweepSeg v v1) (hLB : SweepSeg v1 v2) : SweepSeg v v2 := by
  intro t hne hlen p hp
  by_cases h2 : getS v2 t = getS v1 t
  · have hne1 : getS v1 t ≠ getS v t := by rw [← h2]; exact hne
    have hlen1 : (getS v1 t).length = 1 := by rw [← h2]; exact hlen
    have hout := hLA t hne1 hlen1 p hp
    rw [h2]
    intro hin
    exact hout ((hB.1 p).subset hin)
  · exact hLB t h2 hlen p hp

theorem sweepAll : ∀ n, SwElim n ∧ SwElimList n ∧ SwUnits n ∧
    SwAssign n ∧ SwDigits n := by
  intro n
  induction n with
  | zero =>
    refine ⟨?_, ?_, ?_, ?_, ?_⟩
    · intro v s d v' h
      simp only [elimF] at h
      exact PRes.noConfusion h
    · intro v ss d v' h _
      cases ss with
      | nil =>
        simp only [elimListF, PRes.ok.injEq] at h
        subst h; exact sweepSeg_refl v
      | cons s2 rest =>
        simp only [elimListF, elimF] at h
        exact PRes.noConfusion h
    · intro v us d
      induction us with
      | nil =>
        intro v' h _
        simp only [unitsF, PRes.ok.injEq] at h
        subst h; exact sweepSeg_refl v
      | cons u rest ihus =>
        intro v' h hnd
        simp only [unitsF] at h
        by_cases h0 : (u.filter (fun s2 => (getS v s2).contains d)).length = 0
        · rw [if_pos h0] at h; exact PRes.noConfusion h
        · rw [if_neg h0] at h
          by_cases h1 : (u.filter (fun s2 => (getS v s2).contains d)).length = 1
          · rw [if_pos h1] at h
            simp only [assignF] at h
            exact PRes.noConfusion h
          · rw [if_neg h1] at h
            exact ihus v' h hnd
    · intro v s d v' h
      simp only [assignF] at h
      exact PRes.noConfusion h
    · intro v s ds v' h _
      cases ds with
      | nil =>
        simp only [elimDigitsF, PRes.ok.injEq] at h
        subst h; exact sweepSeg_refl v
      | cons d2 rest =>
        simp only [elimDigitsF, elimF] at h
        exact PRes.noConfusion h
  | succ n ihn =>
    have hElim : SwElim (n + 1) := by
      intro v s d v' h hnd
      simp only [elimF] at h
      by_cases hcd : (getS v s).contains d = false
      · rw [if_pos hcd] at h
        simp only [PRes.ok.injEq] at h
        subst h; exact sweepSeg_refl _
      · rw [if_neg hcd] at h
        have hcd' : (getS v s).contains d = true := by
          cases hb : (getS v s).contains d
          · exact absurd hb hcd
          · rfl
        have hmem : d ∈ getS v s := (contains_true_iff_mem _ _).1 hcd'
        have hvsne : getS v s ≠ [] := by
          intro hnil; rw [hnil] at hmem; exact List.not_mem_nil d hmem
        have hslen := getS_ne_nil_lt v s hvsne
        have hg1 : getS (v.set s ((getS v s).erase d)) s =
            (getS v s).erase d := getS_set_self v s _ hslen
        by_cases hz : (getS (v.set s ((getS v s).erase d)) s).length = 0
        · rw [if_pos hz] at h; exact PRes.noConfusion h
        · rw [if_neg hz] at h
          have hstep : MStep v (v.set s ((getS v s).erase d)) :=
            MStep_set_erase v s d hz
          have hnd1 : ∀ t, (getS (v.set s ((getS v s).erase d)) t).Nodup :=
            fun t => (hnd t).sublist (hstep.1 t)
          by_cases hl1 : (getS (v.set s ((getS v s).erase d)) s).length = 1
          · rw [if_pos hl1] at h
            cases hsw : elimListF n (v.set s ((getS v s).erase d)) (peers s)
                ((getS (v.set s ((getS v s).erase d)) s).headD 0) with
            | ok v2 =>
              rw [hsw] at h
              have hmono2 := (monoAll n).2.1 _ _ _ _ hsw
              have hmono3 := (monoAll n).2.2.1 _ _ _ _ h
              have hnd2 : ∀ t, (getS v2 t).Nodup :=
                fun t => (hnd1 t).sublist (hmono2.1 t)
              have hsw1 := ihn.2.1 _ _ _ _ hsw hnd1
              have hsw2 := ihn.2.2.1 _ _ _ _ h hnd2
              have hsing1 : getS (v.set s ((getS v s).erase d)) s =
                  [(getS (v.set s ((getS v s).erase d)) s).headD 0] :=
                len1_eq _ hl1
              have hne1 : getS (v.set s ((getS v s).erase d)) s ≠ [] := by
                intro hnil; rw [hnil] at hl1; simp at hl1
              have hsing2 : getS v2 s =
                  [(getS (v.set s ((getS v s).erase d)) s).headD 0] := by
                refine sublist_singleton_eq _ _ ?_ ?_
                · rw [← hsing1]; exact hmono2.1 s
                · exact hmono2.2.1 s hne1
              have hsing3 : getS v' s =
                  [(getS (v.set s ((getS v s).erase d)) s).headD 0] := by
                refine sublist_singleton_eq _ _ ?_ ?_
                · rw [← hsing2]; exact hmono3.1 s
                · exact hmono3.2.1 s (by rw [hsing2]; simp)
              have hpeersgone := elimListF_postcond n (peers s)
                (v.set s ((getS v s).erase d))
                ((getS (v.set s ((getS v s).erase d)) s).headD 0) v2 hsw hnd1
              intro t htne htlen p hp
              by_cases hts : t = s
              · subst hts
                rw [hsing3]
                simp only [List.headD_cons]
                intro hin
                exact hpeersgone p hp ((hmono3.1 p).subset hin)
              · have hcomb : SweepSeg (v.set s ((getS v s).erase d)) v' :=
                  sweepComp hmono3 hsw1 hsw2
                have hvt : getS (v.set s ((getS v s).erase d)) t = getS v t :=
                  getS_set_ne v s t _ (fun hh => hts hh.symm)
                have htne' : getS v' t ≠ getS (v.set s ((getS v s).erase d)) t := by
                  rw [hvt]; exact htne
                exact hcomb t htne' htlen p hp
            | contra => rw [hsw] at h; exact PRes.noConfusion h
            | out => rw [hsw] at h; exact PRes.noConfusion h
          · rw [if_neg hl1] at h
            have hmono3 := (monoAll n).2.2.1 _ _ _ _ h
            have hswu := ihn.2.2.1 _ _ _ _ h hnd1
            intro t htne htlen p hp
            by_cases hts : t = s
            · subst hts
              by_cases hch : getS v' t = getS (v.set t ((getS v t).erase d)) t
              · rw [hch] at htlen
                exact absurd htlen hl1
              · exact hswu t hch htlen p hp
            · have hvt : getS (v.set s ((getS v s).erase d)) t = getS v t :=
                getS_set_ne v s t _ (fun hh => hts hh.symm)
              have htne' : getS v' t ≠ getS (v.set s ((getS v s).erase d)) t := by
                rw [hvt]; exact htne
              exact hswu t htne' htlen p hp
    have hAssign : SwAssign (n + 1) := by
      intro v s d v' h hnd
      simp only [assignF] at h
      exact ihn.2.2.2.2 _ _ _ _ h hnd
    refine ⟨hElim, ?_, ?_, hAssign, ?_⟩
    · intro v ss d
      induction ss generalizing v with
      | nil =>
        intro v' h _
        simp only [elimListF, PRes.ok.injEq] at h
        subst h; exact sweepSeg_refl v
      | cons s2 rest ihss =>
        intro v' h hnd
        cases he : elimF (n + 1) v s2 d with
        | ok v2 =>
          simp only [elimListF, he] at h
          have hm := (monoAll (n + 1)).1 _ _ _ _ he
          have hnd2 : ∀ t, (getS v2 t).Nodup := fun t => (hnd t).sublist (hm.1 t)
          exact sweepComp ((monoAll (n + 1)).2.1 _ _ _ _ h)
            (hElim _ _ _ _ he hnd) (ihss v2 v' h hnd2)
        | contra =>
          simp only [elimListF, he] at h
          exact PRes.noConfusion h
        | out =>
          simp only [elimListF, he] at h
          exact PRes.noConfusion h
    · intro v us d
      induction us generalizing v with
      | nil =>
        intro v' h _
        simp only [unitsF, PRes.ok.injEq] at h
        subst h; exact sweepSeg_refl v
      | cons u rest ihus =>
        intro v' h hnd
        simp only [unitsF] at h
        by_cases h0 : (u.filter (fun s2 => (getS v s2).contains d)).length = 0
        · rw [if_pos h0] at h; exact PRes.noConfusion h
        · rw [if_neg h0] at h
          by_cases h1 : (u.filter (fun s2 => (getS v s2).contains d)).length = 1
          · rw [if_pos h1] at h
            cases ha : assignF (n + 1) v
                ((u.filter (fun s2 => (getS v s2).contains d)).headD 0) d with
            | ok v2 =>
              rw [ha] at h
              have hm := (monoAll (n + 1)).2.2.2.1 _ _ _ _ ha
              have hnd2 : ∀ t, (getS v2 t).Nodup :=
                fun t => (hnd t).sublist (hm.1 t)
              exact sweepComp ((monoAll (n + 1)).2.2.1 _ _ _ _ h)
                (hAssign _ _ _ _ ha hnd) (ihus v2 v' h hnd2)
            | contra => rw [ha] at h; exact PRes.noConfusion h
            | out => rw [ha] at h; exact PRes.noConfusion h
          · rw [if_neg h1] at h
            exact ihus v v' h hnd
    · intro v s ds
      induction ds generalizing v with
      | nil =>
        intro v' h _
        simp only [elimDigitsF, PRes.ok.injEq] at h
        subst h; exact sweepSeg_refl v
      | cons d2 rest ihds =>
        intro v' h hnd
        cases he : elimF (n + 1) v s d2 with
        | ok v2 =>
          simp only [elimDigitsF, he] at h
          have hm := (monoAll (n + 1)).1 _ _ _ _ he
          have hnd2 : ∀ t, (getS v2 t).Nodup := fun t => (hnd t).sublist (hm.1 t)
          exact sweepComp ((monoAll (n + 1)).2.2.2.2 _ _ _ _ h)
            (hElim _ _ _ _ he hnd) (ihds v2 v' h hnd2)
        | contra =>
          simp only [elimDigitsF, he] at h
          exact PRes.noConfusion h
        | out =>
          simp only [elimDigitsF, he] at h
          exact PRes.noConfusion h

/-! ### C5: a duplicated digit in a unit makes `parse_grid` fail -/

theorem units_mem_lt : ∀ u ∈ unitlist, ∀ x ∈ u, x < 81 := by decide

theorem mem_foldl_addUnique_acc :
    ∀ (L acc : List Nat) (x : Nat), x ∈ acc → x ∈ L.foldl addUnique acc := by
  intro L
  induction L with
  | nil => intro acc x hx; exact hx
  | cons a rest ih =>
    intro acc x hx
    refine ih (addUnique acc a) x ?_
    unfold addUnique
    split
    · exact hx
    · exact List.mem_append.2 (Or.inl hx)

theorem mem_foldl_addUnique :
    ∀ (L acc : List Nat) (x : Nat), x ∈ L → x ∈ L.foldl addUnique acc := by
  intro L
  induction L with
  | nil => intro acc x hx; exact absurd hx (List.not_mem_nil x)
  | cons a rest ih =>
    intro acc x hx
    rcases List.mem_cons.1 hx with hxa | hxr
    · subst hxa
      refine mem_foldl_addUnique_acc rest (addUnique acc x) x ?_
      unfold addUnique
      split
      · exact (contains_true_iff_mem acc x).1 (by assumption)
      · exact List.mem_append.2 (Or.inr (List.mem_cons_self x []))
    · exact ih (addUnique acc a) x hxr

/-- Two distinct squares of one unit are peers. -/
theorem mem_peers_of_unit (u : List Nat) (hu : u ∈ unitlist) (p1 p2 : Nat)
    (h1 : p1 ∈ u) (h2 : p2 ∈ u) (hne : p2 ≠ p1) : p2 ∈ peers p1 := by
  unfold peers
  apply mem_foldl_addUnique
  refine List.mem_flatMap.2 ⟨u, ?_, ?_⟩
  · unfold units
    refine List.mem_filter.2 ⟨hu, ?_⟩
    exact (contains_true_iff_mem u p1).2 h1
  · refine List.mem_filter.2 ⟨h2, ?_⟩
    simp [hne]

theorem getS_initValues_lt (t : Nat) (h : t < 81) :
    getS initValues t = digitsL := by
  unfold getS initValues
  rw [getD_replicate]
  exact if_pos h

theorem getS_initValues_ge (t : Nat) (h : 81 ≤ t) : getS initValues t = [] := by
  unfold getS initValues
  rw [getD_replicate]
  exact if_neg (by omega)

theorem parseInv_init : ParseInv initValues := by
  refine ⟨monoRefl, ?_⟩
  intro t e hsing
  by_cases h : t < 81
  · rw [getS_initValues_lt t h] at hsing
    exact absurd (congrArg List.length hsing) (by simp [digitsL])
  · rw [getS_initValues_ge t (by omega)] at hsing
    exact absurd hsing (by simp)

theorem parseInv_nodup {v : GridValues} (hinv : ParseInv v) :
    ∀ t, (getS v t).Nodup :=
  fun t => (initValues_nodup t).sublist (hinv.1.1 t)

/-- Facts provided by a successful `assign` call. -/
theorem assign_some_facts (v : GridValues) (s d : Nat) (v1 : GridValues)
    (h : assign v s d = some v1) (hnd : ∀ t, (getS v t).Nodup) :
    MStep v v1 ∧ SweepSeg v v1 ∧
      (getS v s ≠ [] → d ∈ getS v s ∧ getS v1 s = [d]) := by
  rw [assign_eq_assignF] at h
  cases ha : assignF (2 * countAll v + 2) v s d with
  | ok w =>
    rw [ha] at h
    simp only [Option.some.injEq] at h
    have hw : v1 = w := h.symm
    subst hw
    refine ⟨(monoAll _).2.2.2.1 _ _ _ _ ha,
      (sweepAll _).2.2.2.1 _ _ _ _ ha hnd, ?_⟩
    intro hne
    exact assignF_success _ _ _ _ _ ha hnd hne
  | contra => rw [ha] at h; exact Option.noConfusion h
  | out => rw [ha] at h; exact Option.noConfusion h

/-- A successful `assign` preserves the parse invariant. -/
theorem parseInv_assign (v v1 : GridValues) (s d : Nat)
    (h : assign v s d = some v1) (hinv : ParseInv v) :
    ParseInv v1 ∧ MStep v v1 := by
  obtain ⟨hm, hsw, _⟩ := assign_some_facts v s d v1 h (parseInv_nodup hinv)
  refine ⟨⟨monoComp hinv.1 hm, ?_⟩, hm⟩
  intro t e hsing p hp
  by_cases hch : getS v1 t = getS v t
  · have hv : getS v t = [e] := by rw [← hch]; exact hsing
    intro hin
    exact hinv.2 t e hv p hp ((hm.1 p).subset hin)
  · have := hsw t hch (by rw [hsing]; rfl) p hp
    rw [hsing] at this
    simpa using this

theorem parseGo_append :
    ∀ (A B : List Nat) (board : Board) (v : GridValues),
      parseGo (A ++ B) board v =
        match parseGo A board v with
        | some v2 => parseGo B board v2
        | none => none := by
  intro A
  induction A with
  | nil => intro B board v; simp [parseGo]
  | cons s rest ih =>
    intro B board v
    simp only [List.cons_append, parseGo]
    by_cases h0 : cellGet board (s / 9) (s % 9) ≠ 0
    · rw [if_pos h0, if_pos h0]
      cases ha : assign v s (cellGet board (s / 9) (s % 9)) with
      | some v2 => exact ih B board v2
      | none => rfl
    · rw [if_neg h0, if_neg h0]
      exact ih B board v

theorem parseGo_inv :
    ∀ (L : List Nat) (board : Board) (v v' : GridValues),
      parseGo L board v = some v' → ParseInv v → ParseInv v' := by
  intro L
  induction L with
  | nil =>
    intro board v v' h hinv
    simp only [parseGo, Option.some.injEq] at h
    have hv : v' = v := h.symm
    subst hv
    exact hinv
  | cons s rest ih =>
    intro board v v' h hinv
    simp only [parseGo] at h
    by_cases h0 : cellGet board (s / 9) (s % 9) ≠ 0
    · rw [if_pos h0] at h
      cases ha : assign v s (cellGet board (s / 9) (s % 9)) with
      | some v2 =>
        rw [ha] at h
        exact ih board v2 v' h (parseInv_assign v v2 s _ ha hinv).1
      | none => rw [ha] at h; exact Option.noConfusion h
    · rw [if_neg h0] at h
      exact ih board v v' h hinv

/-- Once the duplicated digit has been swept from the second cell, the
second cell's own assignment must fail. -/
theorem parseGo_kill (board : Board) (p2 d : Nat) (hd0 : d ≠ 0)
    (hcell : cellGet board (p2 / 9) (p2 % 9) = d) (hp2 : p2 < 81) :
    ∀ (L : List Nat) (v : GridValues), ParseInv v → d ∉ getS v p2 →
      p2 ∈ L → parseGo L board v = none := by
  intro L
  induction L with
  | nil => intro v _ _ hmem; exact absurd hmem (List.not_mem_nil p2)
  | cons s rest ih =>
    intro v hinv hgone hmem
    by_cases hs : s = p2
    · subst hs
      simp only [parseGo]
      rw [hcell, if_pos hd0]
      cases ha : assign v s d with
      | none => rfl
      | some v2 =>
        exfalso
        have hne : getS v s ≠ [] :=
          hinv.1.2.1 s (by rw [getS_initValues_lt s hp2]; simp [digitsL])
        exact hgone ((assign_some_facts v s d v2 ha
          (parseInv_nodup hinv)).2.2 hne).1
    · have hmem2 : p2 ∈ rest := by
        rcases List.mem_cons.1 hmem with hh | hh
        · exact absurd hh.symm hs
        · exact hh
      simp only [parseGo]
      by_cases h0 : cellGet board (s / 9) (s % 9) ≠ 0
      · rw [if_pos h0]
        cases ha : assign v s (cellGet board (s / 9) (s % 9)) with
        | none => rfl
        | some v2 =>
          have ⟨hinv2, hm⟩ := parseInv_assign v v2 s _ ha hinv
          refine ih v2 hinv2 ?_ hmem2
          intro hin
          exact hgone ((hm.1 p2).subset hin)
      · rw [if_neg h0]
        exact ih v hinv hgone hmem2

theorem range_split_at : ∀ (n p : Nat), p < n →
    ∃ L2, List.range n = List.range p ++ p :: L2 := by
  intro n
  induction n with
  | zero => intro p h; omega
  | succ n ih =>
    intro p h
    by_cases hp : p < n
    · obtain ⟨L2, hL2⟩ := ih p hp
      exact ⟨L2 ++ [n], by rw [List.range_succ, hL2]; simp⟩
    · have hpn : p = n := by omega
      subst hpn
      exact ⟨[], by rw [List.range_succ]⟩

theorem range_split_two (p1 p2 n : Nat) (h12 : p1 < p2) (h2n : p2 < n) :
    ∃ L2, List.range n = List.range p1 ++ p1 :: L2 ∧ p2 ∈ L2 := by
  obtain ⟨L2, hL2⟩ := range_split_at n p1 (by omega)
  refine ⟨L2, hL2, ?_⟩
  have hmem : p2 ∈ List.range n := List.mem_range.2 h2n
  rw [hL2] at hmem
  rcases List.mem_append.1 hmem with hh | hh
  · exact absurd (List.mem_range.1 hh) (by omega)
  · rcases List.mem_cons.1 hh with hh2 | hh2
    · omega
    · exact hh2

/-- Ordered version of C5: the first duplicate is parsed first. -/
theorem parse_dup_ordered (board : Board) (u : List Nat) (hu : u ∈ unitlist)
    (p1 p2 : Nat) (h1 : p1 ∈ u) (h2 : p2 ∈ u) (hlt : p1 < p2) (d : Nat)
    (hd1 : 1 ≤ d)
    (hc1 : cellGet board (p1 / 9) (p1 % 9) = d)
    (hc2 : cellGet board (p2 / 9) (p2 % 9) = d) :
    parse_grid board = none := by
  have hp1lt : p1 < 81 := units_mem_lt u hu p1 h1
  have hp2lt : p2 < 81 := units_mem_lt u hu p2 h2
  obtain ⟨L2, hsplit, hp2L2⟩ := range_split_two p1 p2 81 hlt hp2lt
  unfold parse_grid squares
  rw [hsplit, parseGo_append]
  cases hA : parseGo (List.range p1) board initValues with
  | none => rfl
  | some v =>
    have hinv : ParseInv v := parseGo_inv _ board initValues v hA parseInv_init
    simp only [parseGo]
    rw [hc1, if_pos (by omega : d ≠ 0)]
    cases hB : assign v p1 d with
    | none => rfl
    | some v1 =>
      have hfacts := assign_some_facts v p1 d v1 hB (parseInv_nodup hinv)
      have hne : getS v p1 ≠ [] := by
        exact hinv.1.2.1 p1 (by rw [getS_initValues_lt p1 hp1lt]; simp [digitsL])
      have hpin : getS v1 p1 = [d] := (hfacts.2.2 hne).2
      have hinv1 := (parseInv_assign v v1 p1 d hB hinv).1
      have hpeer : p2 ∈ peers p1 :=
        mem_peers_of_unit u hu p1 p2 h1 h2 (by omega)
      have hgone : d ∉ getS v1 p2 := hinv1.2 p1 d hpin p2 hpeer
      exact parseGo_kill board p2 d (by omega) hc2 hp2lt L2 v1 hinv1 hgone hp2L2

/-- C5: a concrete grid that already contains the same digit twice
within one unit makes `parse_grid` return `null` (Contradiction): the
duplicate is surfaced as a contradiction arising from the assignment of
one of the two offending pre-filled cells. -/
theorem parse_grid_duplicate_contradiction (board : Board) (u : List Nat)
    (hu : u ∈ unitlist) (p1 p2 : Nat) (h1 : p1 ∈ u) (h2 : p2 ∈ u)
    (hne : p1 ≠ p2) (d : Nat) (hd1 : 1 ≤ d) (hd9 : d ≤ 9)
    (hc1 : cellGet board (p1 / 9) (p1 % 9) = d)
    (hc2 : cellGet board (p2 / 9) (p2 % 9) = d) :
    parse_grid board = none := by
  rcases Nat.lt_or_ge p1 p2 with hlt | hge
  · exact parse_dup_ordered board u hu p1 p2 h1 h2 hlt d hd1 hc1 hc2
  · have hlt2 : p2 < p1 := by omega
    exact parse_dup_ordered board u hu p2 p1 h2 h1 hlt2 d hd1 hc2 hc1

/-- Witness for C5: two 5s in the first row. -/
theorem parse_grid_duplicate_witness :
    ([0, 1, 2, 3, 4, 5, 6, 7, 8] ∈ unitlist ∧ (0 : Nat) ∈ [0, 1, 2, 3, 4, 5, 6, 7, 8] ∧
      (1 : Nat) ∈ [0, 1, 2, 3, 4, 5, 6, 7, 8] ∧ (0 : Nat) ≠ 1 ∧ (1 : Nat) ≤ 5 ∧ (5 : Nat) ≤ 9) ∧
    parse_grid ([[5, 5, 0, 0, 0, 0, 0, 0, 0]] ++ List.replicate 8 (List.replicate 9 0)) = none :=
  ⟨⟨by decide, by decide, by decide, by decide, by decide, by decide⟩,
    parse_grid_duplicate_contradiction _ [0, 1, 2, 3, 4, 5, 6, 7, 8]
      (by decide) 0 1 (by decide) (by decide) (by decide) 5 (by decide)
      (by decide) (by decide) (by decide)⟩

theorem solvedBase_noConf : noConf solvedBase := by unfold noConf; decide

theorem solvedBase_complete : completeB solvedBase := by unfold completeB; decide

theorem solvedBase_le9 : cellsLe9 solvedBase := by unfold cellsLe9; decide

theorem unitlist_nodup_len : ∀ u ∈ unitlist, u.Nodup ∧ u.length = 9 := by
  decide

/-- Any two squares of a unit share a row, a column, or a box. -/
theorem unit_same_row_col_box :
    ∀ u ∈ unitlist, ∀ a ∈ u, ∀ b2 ∈ u,
      a / 9 = b2 / 9 ∨ a % 9 = b2 % 9 ∨
        (a / 9 / 3 = b2 / 9 / 3 ∧ a % 9 / 3 = b2 % 9 / 3) := by
  decide

theorem id_div (r c : Nat) (hc : c < 9) : (r * 9 + c) / 9 = r := by omega

theorem id_mod (r c : Nat) (hc : c < 9) : (r * 9 + c) % 9 = c := by omega

/-- The row unit of row `i`. -/
theorem rowU_mem_unitlist (i : Nat) (hi : i < 9) :
    (List.range 9).map (fun c => i * 9 + c) ∈ unitlist := by
  unfold unitlist rowUnits
  refine List.mem_append.2 (Or.inl (List.mem_append.2 (Or.inl ?_)))
  exact List.mem_map.2 ⟨i, List.mem_range.2 hi, rfl⟩

theorem colU_mem_unitlist (j : Nat) (hj : j < 9) :
    (List.range 9).map (fun r => r * 9 + j) ∈ unitlist := by
  unfold unitlist colUnits
  refine List.mem_append.2 (Or.inl (List.mem_append.2 (Or.inr ?_)))
  exact List.mem_map.2 ⟨j, List.mem_range.2 hj, rfl⟩

theorem boxU_mem_unitlist (i j : Nat) (hi : i < 9) (hj : j < 9) :
    boxU i j ∈ unitlist := by
  unfold unitlist boxUnits boxU
  refine List.mem_append.2 (Or.inr ?_)
  refine List.mem_flatMap.2 ⟨i / 3, List.mem_range.2 (by omega), ?_⟩
  exact List.mem_map.2 ⟨j / 3, List.mem_range.2 (by omega), rfl⟩

theorem rowU_cell (i x : Nat) (hx : x < 9) :
    i * 9 + x ∈ (List.range 9).map (fun c => i * 9 + c) :=
  List.mem_map.2 ⟨x, List.mem_range.2 hx, rfl⟩

theorem colU_cell (j x : Nat) (hx : x < 9) :
    x * 9 + j ∈ (List.range 9).map (fun r => r * 9 + j) :=
  List.mem_map.2 ⟨x, List.mem_range.2 hx, rfl⟩

theorem boxU_cell (i j a b2 : Nat) (ha : a < 3) (hb : b2 < 3) :
    (3 * (i / 3) + a) * 9 + (3 * (j / 3) + b2) ∈ boxU i j := by
  unfold boxU
  refine List.mem_flatMap.2 ⟨a, List.mem_range.2 ha, ?_⟩
  exact List.mem_map.2 ⟨b2, List.mem_range.2 hb, rfl⟩

theorem boxU_cell_self (i j : Nat) (hi : i < 9) (hj : j < 9) :
    i * 9 + j ∈ boxU i j := by
  have h := boxU_cell i j (i % 3) (j % 3) (by omega) (by omega)
  have e1 : 3 * (i / 3) + i % 3 = i := by omega
  have e2 : 3 * (j / 3) + j % 3 = j := by omega
  rw [e1, e2] at h
  exact h

theorem getD_mem {α : Type} (l : List α) (i : Nat) (d : α) (h : i < l.length) :
    l.getD i d ∈ l := by
  induction l generalizing i with
  | nil => simp at h
  | cons a t ih =>
    cases i with
    | zero => exact List.mem_cons_self a t
    | succ i' =>
      simp only [List.getD_cons_succ]
      exact List.mem_cons.2 (Or.inr (ih i' (by simpa using h)))

theorem shape_row_len (g : Board) (hsh : boardShape g) (r : Nat) (hr : r < 9) :
    (g.getD r []).length = 9 :=
  hsh.2 _ (getD_mem g r [] (by rw [hsh.1]; omega))

theorem cellGet_setCell_self (g : Board) (hsh : boardShape g) (i j v : Nat)
    (hi : i < 9) (hj : j < 9) : cellGet (setCell g i j v) i j = v := by
  unfold cellGet setCell
  rw [getD_set_self [] g i _ (by rw [hsh.1]; omega)]
  rw [getD_set_self 0 _ j v (by rw [shape_row_len g hsh i hi]; omega)]

theorem mem_of_mem_set {α : Type} :
    ∀ (l : List α) (i : Nat) (x y : α), y ∈ l.set i x → y = x ∨ y ∈ l := by
  intro l
  induction l with
  | nil => intro i x y h; simp [List.set] at h
  | cons a t ih =>
    intro i x y h
    cases i with
    | zero =>
      rcases List.mem_cons.1 h with hh | hh
      · exact Or.inl hh
      · exact Or.inr (List.mem_cons.2 (Or.inr hh))
    | succ i' =>
      rcases List.mem_cons.1 h with hh | hh
      · exact Or.inr (List.mem_cons.2 (Or.inl hh))
      · rcases ih i' x y hh with hh2 | hh2
        · exact Or.inl hh2
        · exact Or.inr (List.mem_cons.2 (Or.inr hh2))

theorem boardShape_setCell (g : Board) (hsh : boardShape g) (i j v : Nat)
    (hi : i < 9) (hj : j < 9) : boardShape (setCell g i j v) := by
  constructor
  · rw [setCell, List.length_set]; exact hsh.1
  · intro row hrow
    rcases mem_of_mem_set g i _ row hrow with hh | hh
    · rw [hh, List.length_set]
      exact shape_row_len g hsh i hi
    · exact hsh.2 row hh

theorem mem_digitsL_iff (n : Nat) : n ∈ digitsL ↔ 1 ≤ n ∧ n ≤ 9 := by
  simp [digitsL]
  omega

theorem boardCell_setCell_ne (b : Board) (i j num s : Nat)
    (hne : s ≠ i * 9 + j) :
    boardCell (setCell b i j num) s = boardCell b s := by
  unfold boardCell
  apply cellGet_setCell_of_ne
  rintro ⟨hr, hc⟩
  exact hne (by omega)

theorem boardCell_setCell_self (b : Board) (hsh : boardShape b)
    (i j num : Nat) (hi : i < 9) (hj : j < 9) :
    boardCell (setCell b i j num) (i * 9 + j) = num := by
  unfold boardCell
  rw [id_div i j hj, id_mod i j hj]
  exact cellGet_setCell_self b hsh i j num hi hj

theorem findEmptyFrom_some_spec :
    ∀ (n k : Nat) (b : Board) (i j : Nat), 81 - k ≤ n →
      findEmptyFrom b k = some (i, j) →
      i < 9 ∧ j < 9 ∧ cellGet b i j = 0 := by
  intro n
  induction n with
  | zero =>
    intro k b i j hk h
    rw [findEmptyFrom] at h
    rw [if_neg (by omega)] at h
    exact Option.noConfusion h
  | succ n ih =>
    intro k b i j hk h
    rw [findEmptyFrom] at h
    by_cases hlt : k < 81
    · rw [if_pos hlt] at h
      by_cases h0 : cellGet b (k / 9) (k % 9) = 0
      · rw [if_pos h0] at h
        simp only [Option.some.injEq, Prod.mk.injEq] at h
        obtain ⟨hi, hj⟩ := h
        subst hi; subst hj
        exact ⟨by omega, by omega, h0⟩
      · rw [if_neg h0] at h
        exact ih (k + 1) b i j (by omega) h
    · rw [if_neg hlt] at h
      exact Option.noConfusion h

theorem findEmptyFrom_none_spec :
    ∀ (n k : Nat) (b : Board), 81 - k ≤ n → findEmptyFrom b k = none →
      ∀ s, k ≤ s → s < 81 → boardCell b s ≠ 0 := by
  intro n
  induction n with
  | zero =>
    intro k b hk _ s hs1 hs2
    omega
  | succ n ih =>
    intro k b hk h s hs1 hs2
    rw [findEmptyFrom] at h
    by_cases hlt : k < 81
    · rw [if_pos hlt] at h
      by_cases h0 : cellGet b (k / 9) (k % 9) = 0
      · rw [if_pos h0] at h
        exact Option.noConfusion h
      · rw [if_neg h0] at h
        by_cases hsk : s = k
        · subst hsk
          exact h0
        · exact ih (k + 1) b (by omega) h s (by omega) hs2
    · omega

theorem countP_le_of (p q : Nat → Bool) :
    ∀ (l : List Nat), (∀ x ∈ l, q x = true → p x = true) →
      l.countP q ≤ l.countP p := by
  intro l
  induction l with
  | nil => intro _; simp
  | cons x rest ih =>
    intro himp
    rw [List.countP_cons, List.countP_cons]
    have hrest := ih (fun y hy => himp y (List.mem_cons.2 (Or.inr hy)))
    by_cases hq : q x = true
    · rw [if_pos hq, if_pos (himp x (List.mem_cons_self x rest) hq)]
      omega
    · rw [if_neg hq]
      split <;> omega

theorem countP_lt_of (p q : Nat → Bool) :
    ∀ (l : List Nat) (a : Nat), a ∈ l →
      (∀ x ∈ l, q x = true → p x = true) →
      p a = true → q a = false → l.countP q < l.countP p := by
  intro l
  induction l with
  | nil => intro a ha; exact absurd ha (List.not_mem_nil a)
  | cons x rest ih =>
    intro a ha himp hpa hqa
    rw [List.countP_cons, List.countP_cons]
    have hrest := countP_le_of p q rest
      (fun y hy => himp y (List.mem_cons.2 (Or.inr hy)))
    rcases List.mem_cons.1 ha with hax | har
    · subst hax
      rw [if_pos hpa, if_neg (by rw [hqa]; exact Bool.noConfusion)]
      omega
    · have := ih a har (fun y hy => himp y (List.mem_cons.2 (Or.inr hy))) hpa hqa
      by_cases hq : q x = true
      · rw [if_pos hq, if_pos (himp x (List.mem_cons_self x rest) hq)]
        omega
      · rw [if_neg hq]
        split <;> omega

theorem emptyCount_setCell_lt (b : Board) (hsh : boardShape b)
    (i j num : Nat) (hi : i < 9) (hj : j < 9)
    (hb0 : cellGet b i j = 0) (hnum : 1 ≤ num) :
    emptyCount (setCell b i j num) < emptyCount b := by
  unfold emptyCount
  apply countP_lt_of _ _ _ (i * 9 + j)
  · exact List.mem_range.2 (by omega)
  · intro x _ hqx
    by_cases hx : x = i * 9 + j
    · subst hx
      rw [boardCell_setCell_self b hsh i j num hi hj] at hqx
      exfalso
      have := of_decide_eq_true hqx
      omega
    · rw [boardCell_setCell_ne b i j num x hx] at hqx
      exact hqx
  · have : boardCell b (i * 9 + j) = 0 := by
      unfold boardCell
      rw [id_div i j hj, id_mod i j hj]
      exact hb0
    simp [this]
  · rw [boardCell_setCell_self b hsh i j num hi hj]
    simp
    omega

/-- A nonzero occurrence of `num` in the row, column or box of the
empty target square contradicts `isValid = true`. -/
theorem isValid_no_occurrence (b : Board) (i j num : Nat)
    (hval : isValid b i j num = true) (s2 : Nat) (hs2 : s2 < 81)
    (hrel : s2 / 9 = i ∨ s2 % 9 = j ∨
      (s2 / 9 / 3 = i / 3 ∧ s2 % 9 / 3 = j / 3))
    (hv : boardCell b s2 = num) : False := by
  have hfalse : isValid b i j num = false := by
    rw [isValid_false_iff]
    rcases hrel with hr | hc | ⟨hbr, hbc⟩
    · refine Or.inl ⟨s2 % 9, by omega, ?_⟩
      have : cellGet b (s2 / 9) (s2 % 9) = num := hv
      rw [hr] at this
      exact this
    · refine Or.inr (Or.inl ⟨s2 / 9, by omega, ?_⟩)
      have : cellGet b (s2 / 9) (s2 % 9) = num := hv
      rw [hc] at this
      exact this
    · refine Or.inr (Or.inr ⟨s2 / 9 % 3, by omega, s2 % 9 % 3, by omega, ?_⟩)
      have h1 : s2 / 9 % 3 + (i - i % 3) = s2 / 9 := by omega
      have h2 : s2 % 9 % 3 + (j - j % 3) = s2 % 9 := by omega
      rw [h1, h2]
      exact hv
  rw [hval] at hfalse
  exact Bool.noConfusion hfalse

theorem noConf_setCell (b : Board) (i j num : Nat) (hsh : boardShape b)
    (hi : i < 9) (hj : j < 9) (hb0 : cellGet b i j = 0)
    (hval : isValid b i j num = true) (hnum1 : 1 ≤ num)
    (hnc : noConf b) : noConf (setCell b i j num) := by
  intro u hu s1 hs1 s2 hs2 hne hnz heq
  have hlt := units_mem_lt u hu
  have hrel := unit_same_row_col_box u hu
  by_cases h1t : s1 = i * 9 + j
  · subst h1t
    rw [boardCell_setCell_self b hsh i j num hi hj] at heq
    have h2t : s2 ≠ i * 9 + j := fun hh => hne (by rw [hh])
    rw [boardCell_setCell_ne b i j num s2 h2t] at heq
    have hrel2 := hrel _ hs1 _ hs2
    rw [id_div i j hj, id_mod i j hj] at hrel2
    refine isValid_no_occurrence b i j num hval s2 (hlt s2 hs2) ?_ heq.symm
    rcases hrel2 with hh | hh | ⟨hh1, hh2⟩
    · exact Or.inl hh.symm
    · exact Or.inr (Or.inl hh.symm)
    · exact Or.inr (Or.inr ⟨hh1.symm, hh2.symm⟩)
  · rw [boardCell_setCell_ne b i j num s1 h1t] at heq hnz
    by_cases h2t : s2 = i * 9 + j
    · subst h2t
      rw [boardCell_setCell_self b hsh i j num hi hj] at heq
      have hrel2 := hrel _ hs1 _ hs2
      rw [id_div i j hj, id_mod i j hj] at hrel2
      exact isValid_no_occurrence b i j num hval s1 (hlt s1 hs1) hrel2 heq
    · rw [boardCell_setCell_ne b i j num s2 h2t] at heq
      exact hnc u hu s1 hs1 s2 hs2 hne hnz heq

theorem cellsLe9_setCell (b : Board) (i j num : Nat) (hsh : boardShape b)
    (hi : i < 9) (hj : j < 9) (hnum : num ≤ 9) (hle : cellsLe9 b) :
    cellsLe9 (setCell b i j num) := by
  intro s hs
  by_cases hst : s = i * 9 + j
  · subst hst
    rw [boardCell_setCell_self b hsh i j num hi hj]
    exact hnum
  · rw [boardCell_setCell_ne b i j num s hst]
    exact hle s hs

theorem agreesOn_setCell (b : Board) (hsh : boardShape b) (i j : Nat)
    (hi : i < 9) (hj : j < 9) (hagree : agreesOn b solvedBase) :
    agreesOn (setCell b i j (boardCell solvedBase (i * 9 + j))) solvedBase := by
  intro s hs
  by_cases hst : s = i * 9 + j
  · subst hst
    rw [boardCell_setCell_self b hsh i j _ hi hj]
    exact Or.inr rfl
  · rw [boardCell_setCell_ne b i j _ s hst]
    exact hagree s hs

/-- On a board that agrees with `solvedBase`, the solved grid's digit is
always a valid placement at the first empty cell. -/
theorem isValid_of_agrees (b : Board) (i j : Nat) (hi : i < 9) (hj : j < 9)
    (hb0 : cellGet b i j = 0) (hagree : agreesOn b solvedBase) :
    isValid b i j (boardCell solvedBase (i * 9 + j)) = true := by
  have hd1 : 1 ≤ boardCell solvedBase (i * 9 + j) :=
    Nat.pos_of_ne_zero (solvedBase_complete _ (by omega))
  cases hv : isValid b i j (boardCell solvedBase (i * 9 + j)) with
  | true => rfl
  | false =>
    exfalso
    rw [isValid_false_iff] at hv
    have hcellb : ∀ s, s < 81 → boardCell b s = boardCell solvedBase (i * 9 + j) →
        s ≠ i * 9 + j →
        boardCell solvedBase s = boardCell solvedBase (i * 9 + j) := by
      intro s hs hbs _
      rcases hagree s hs with hz | ha
      · rw [hz] at hbs; omega
      · rw [← ha]; exact hbs
    rcases hv with ⟨x, hx, hcell⟩ | ⟨x, hx, hcell⟩ | ⟨a, ha, b2, hb2, hcell⟩
    · have hbs : boardCell b (i * 9 + x) = boardCell solvedBase (i * 9 + j) := by
        unfold boardCell
        rw [id_div i x hx, id_mod i x hx]
        exact hcell
      have hxj : x ≠ j := by
        intro hh
        subst hh
        unfold boardCell at hbs
        rw [id_div i x hx, id_mod i x hx, hb0] at hbs
        omega
      have hne : i * 9 + x ≠ i * 9 + j := by omega
      have hS := hcellb _ (by omega) hbs hne
      exact solvedBase_noConf _ (rowU_mem_unitlist i hi) _ (rowU_cell i x hx)
        _ (rowU_cell i j hj) hne (by rw [hS]; omega) hS
    · have hbs : boardCell b (x * 9 + j) = boardCell solvedBase (i * 9 + j) := by
        unfold boardCell
        rw [id_div x j hj, id_mod x j hj]
        exact hcell
      have hxi : x ≠ i := by
        intro hh
        subst hh
        unfold boardCell at hbs
        rw [id_div x j hj, id_mod x j hj, hb0] at hbs
        omega
      have hne : x * 9 + j ≠ i * 9 + j := by omega
      have hS := hcellb _ (by omega) hbs hne
      exact solvedBase_noConf _ (colU_mem_unitlist j hj) _ (colU_cell j x hx)
        _ (colU_cell j i hi) hne (by rw [hS]; omega) hS
    · have hrow : a + (i - i % 3) = 3 * (i / 3) + a := by omega
      have hcol : b2 + (j - j % 3) = 3 * (j / 3) + b2 := by omega
      have hrl : 3 * (i / 3) + a < 9 := by omega
      have hcl : 3 * (j / 3) + b2 < 9 := by omega
      have hbs : boardCell b ((3 * (i / 3) + a) * 9 + (3 * (j / 3) + b2)) =
          boardCell solvedBase (i * 9 + j) := by
        unfold boardCell
        rw [id_div _ _ hcl, id_mod _ _ hcl]
        rw [hrow, hcol] at hcell
        exact hcell
      have hne : (3 * (i / 3) + a) * 9 + (3 * (j / 3) + b2) ≠ i * 9 + j := by
        intro hh
        have hri : 3 * (i / 3) + a = i := by omega
        have hcj : 3 * (j / 3) + b2 = j := by omega
        rw [hri, hcj] at hbs
        have hd2 : 1 ≤ boardCell solvedBase (i * 9 + j) := hd1
        unfold boardCell at hbs hd2
        rw [id_div i j hj, id_mod i j hj] at hbs hd2
        rw [hb0] at hbs
        omega
      have hS := hcellb _ (by omega) hbs hne
      exact solvedBase_noConf _ (boxU_mem_unitlist i j hi hj) _
        (boxU_cell i j a b2 ha hb2) _ (boxU_cell_self i j hi hj) hne
        (by rw [hS]; omega) hS

/-- If some digit in the list is valid and leads to success, the try
loop succeeds (regardless of the outcomes of earlier digits). -/
theorem tryNumsF_true (fuel : Nat) (rand : Nat → List Nat) (b : Board)
    (i j d : Nat) (hval : isValid b i j d = true)
    (hrec : ∀ k2, (solveSudokuF fuel rand k2 (setCell b i j d)).1 = true) :
    ∀ (nums : List Nat) (k : Nat), d ∈ nums →
      (tryNumsF fuel rand k b i j nums).1 = true := by
  intro nums
  induction nums with
  | nil => intro k hmem; exact absurd hmem (List.not_mem_nil d)
  | cons n rest ih =>
    intro k hmem
    simp only [tryNumsF]
    by_cases hv : isValid b i j n = true
    · rw [if_pos hv]
      rcases hres : solveSudokuF fuel rand k (setCell b i j n) with ⟨bl, b2, k2⟩
      cases bl with
      | true => rfl
      | false =>
        by_cases hnd : n = d
        · subst hnd
          have := hrec k
          rw [hres] at this
          exact absurd this (by simp)
        · have hdr : d ∈ rest := by
            rcases List.mem_cons.1 hmem with hh | hh
            · exact absurd hh.symm hnd
            · exact hh
          exact ih k2 hdr
    · rw [if_neg hv]
      by_cases hnd : n = d
      · subst hnd; exact absurd hval hv
      · have hdr : d ∈ rest := by
          rcases List.mem_cons.1 hmem with hh | hh
          · exact absurd hh.symm hnd
          · exact hh
        exact ih k hdr

/-- Completeness: with permutation draws, the backtracking solver
succeeds on every board that agrees with the fixed solution. -/
theorem solveSudokuF_success :
    ∀ (fuel : Nat) (rand : Nat → List Nat), (∀ m, (rand m).Perm digitsL) →
      ∀ (b : Board) (k : Nat), boardShape b → agreesOn b solvedBase →
        emptyCount b < fuel → (solveSudokuF fuel rand k b).1 = true := by
  intro fuel
  induction fuel with
  | zero => intro rand _ b k _ _ hcnt; omega
  | succ fuel ih =>
    intro rand hperm b k hsh hagree hcnt
    simp only [solveSudokuF]
    cases hfe : findEmpty b with
    | none => rfl
    | some ij =>
      obtain ⟨i, j⟩ := ij
      obtain ⟨hi, hj, hb0⟩ := findEmptyFrom_some_spec 81 0 b i j (by omega) hfe
      have hd1 : 1 ≤ boardCell solvedBase (i * 9 + j) :=
        Nat.pos_of_ne_zero (solvedBase_complete _ (by omega))
      have hd9 : boardCell solvedBase (i * 9 + j) ≤ 9 :=
        solvedBase_le9 _ (by omega)
      have hdmem : boardCell solvedBase (i * 9 + j) ∈ rand k :=
        ((hperm k).mem_iff).2 ((mem_digitsL_iff _).2 ⟨hd1, hd9⟩)
      have hval := isValid_of_agrees b i j hi hj hb0 hagree
      have hrec : ∀ k2, (solveSudokuF fuel rand k2
          (setCell b i j (boardCell solvedBase (i * 9 + j)))).1 = true := by
        intro k2
        refine ih rand hperm _ k2 (boardShape_setCell b hsh i j _ hi hj)
          (agreesOn_setCell b hsh i j hi hj hagree) ?_
        have := emptyCount_setCell_lt b hsh i j _ hi hj hb0 hd1
        omega
      exact tryNumsF_true fuel rand b i j _ hval hrec (rand k) (k + 1) hdmem

/-- Soundness: a successful run returns a complete conflict-free board
with digits at most 9, given only that the tried digits come from the
digit list. -/
theorem solveSudokuF_sound :
    ∀ (fuel : Nat) (rand : Nat → List Nat), (∀ m, (rand m).Perm digitsL) →
      (∀ (k : Nat) (b b' : Board) (k' : Nat),
        solveSudokuF fuel rand k b = (true, b', k') →
        boardShape b ∧ noConf b ∧ cellsLe9 b →
        (boardShape b' ∧ noConf b' ∧ cellsLe9 b') ∧ completeB b') ∧
      (∀ (nums : List Nat) (k : Nat) (b : Board) (i j : Nat) (b' : Board)
          (k' : Nat),
        tryNumsF fuel rand k b i j nums = (true, b', k') →
        boardShape b ∧ noConf b ∧ cellsLe9 b →
        i < 9 → j < 9 → cellGet b i j = 0 → (∀ n ∈ nums, n ∈ digitsL) →
        (boardShape b' ∧ noConf b' ∧ cellsLe9 b') ∧ completeB b') := by
  intro fuel
  induction fuel with
  | zero =>
    intro rand _
    constructor
    · intro k b b' k' h
      simp only [solveSudokuF, Prod.mk.injEq] at h
      exact absurd h.1 (by simp)
    · intro nums
      induction nums with
      | nil =>
        intro k b i j b' k' h
        simp only [tryNumsF, Prod.mk.injEq] at h
        exact absurd h.1 (by simp)
      | cons n rest ihn =>
        intro k b i j b' k' h hinv hi hj hb0 hmem
        simp only [tryNumsF, solveSudokuF] at h
        by_cases hv : isValid b i j n = true
        · rw [if_pos hv] at h
          exact ihn k b i j b' k' h hinv hi hj hb0
            (fun x hx => hmem x (List.mem_cons.2 (Or.inr hx)))
        · rw [if_neg hv] at h
          exact ihn k b i j b' k' h hinv hi hj hb0
            (fun x hx => hmem x (List.mem_cons.2 (Or.inr hx)))
    | succ fuel ihf =>
    intro rand hperm
    have hsolve : ∀ (k : Nat) (b b' : Board) (k' : Nat),
        solveSudokuF (fuel + 1) rand k b = (true, b', k') →
        boardShape b ∧ noConf b ∧ cellsLe9 b →
        (boardShape b' ∧ noConf b' ∧ cellsLe9 b') ∧ completeB b' := by
      intro k b b' k' h hinv
      simp only [solveSudokuF] at h
      cases hfe : findEmpty b with
      | none =>
        rw [hfe] at h
        simp only [Prod.mk.injEq] at h
        obtain ⟨_, hb, _⟩ := h
        subst hb
        exact ⟨hinv, fun s hs =>
          findEmptyFrom_none_spec 81 0 b (by omega) hfe s (by omega) hs⟩
      | some ij =>
        obtain ⟨i, j⟩ := ij
        rw [hfe] at h
        obtain ⟨hi, hj, hb0⟩ := findEmptyFrom_some_spec 81 0 b i j (by omega) hfe
        exact (ihf rand hperm).2 (rand k) (k + 1) b i j b' k' h hinv hi hj hb0
          (fun n hn => ((hperm k).mem_iff).1 hn)
    refine ⟨hsolve, ?_⟩
    intro nums
    induction nums with
    | nil =>
      intro k b i j b' k' h
      simp only [tryNumsF, Prod.mk.injEq] at h
      exact absurd h.1 (by simp)
    | cons n rest ihn =>
      intro k b i j b' k' h hinv hi hj hb0 hmem
      simp only [tryNumsF] at h
      by_cases hv : isValid b i j n = true
      · rw [if_pos hv] at h
        rcases hres : solveSudokuF (fuel + 1) rand k (setCell b i j n) with
          ⟨bl, b2, k2⟩
        rw [hres] at h
        cases bl with
        | true =>
          simp only [Prod.mk.injEq] at h
          obtain ⟨_, hb, hk⟩ := h
          rw [← hb]
          have hn1 : 1 ≤ n :=
            ((mem_digitsL_iff n).1 (hmem n (List.mem_cons_self n rest))).1
          have hn9 : n ≤ 9 :=
            ((mem_digitsL_iff n).1 (hmem n (List.mem_cons_self n rest))).2
          exact hsolve k _ b2 k2 hres
            ⟨boardShape_setCell b hinv.1 i j n hi hj,
             noConf_setCell b i j n hinv.1 hi hj hb0 hv hn1 hinv.2.1,
             cellsLe9_setCell b i j n hinv.1 hi hj hn9 hinv.2.2⟩
        | false =>
          exact ihn k2 b i j b' k' h hinv hi hj hb0
            (fun x hx => hmem x (List.mem_cons.2 (Or.inr hx)))
      · rw [if_neg hv] at h
        exact ihn k b i j b' k' h hinv hi hj hb0
          (fun x hx => hmem x (List.mem_cons.2 (Or.inr hx)))

/-- Pigeonhole: a complete conflict-free board with digits at most 9 has
each digit exactly once per unit. -/
theorem unit_count_one (b : Board) (hc : completeB b) (hr : cellsLe9 b)
    (hnc : noConf b) (u : List Nat) (hu : u ∈ unitlist) (dg : Nat)
    (h1 : 1 ≤ dg) (h9 : dg ≤ 9) : (u.map (boardCell b)).count dg = 1 := by
  obtain ⟨hnodup, hlen⟩ := unitlist_nodup_len u hu
  have hlt := units_mem_lt u hu
  have hinj : ∀ x ∈ u, ∀ y ∈ u, boardCell b x = boardCell b y → x = y := by
    intro x hx y hy hxy
    by_contra hne
    exact hnc u hu x hx y hy hne (hc x (hlt x hx)) hxy
  have hmnodup : (u.map (boardCell b)).Nodup := hnodup.map_on hinj
  have hsub : (u.map (boardCell b)).toFinset ⊆ Finset.Icc 1 9 := by
    intro x hx
    rw [List.mem_toFinset] at hx
    obtain ⟨s, hs, hfs⟩ := List.mem_map.1 hx
    subst hfs
    exact Finset.mem_Icc.2 ⟨Nat.pos_of_ne_zero (hc s (hlt s hs)),
      hr s (hlt s hs)⟩
  have hcard : (u.map (boardCell b)).toFinset.card = 9 := by
    rw [List.toFinset_card_of_nodup hmnodup, List.length_map, hlen]
  have heq : (u.map (boardCell b)).toFinset = Finset.Icc 1 9 := by
    refine Finset.eq_of_subset_of_card_le hsub ?_
    rw [hcard, Nat.card_Icc]
  have hmem : dg ∈ u.map (boardCell b) := by
    rw [← List.mem_toFinset, heq]
    exact Finset.mem_Icc.2 ⟨h1, h9⟩
  exact List.count_eq_one_of_mem hmnodup hmem

theorem zeroBoard_cell (s : Nat) :
    boardCell (List.replicate 9 (List.replicate 9 0)) s = 0 := by
  unfold boardCell cellGet
  rw [getD_replicate]
  by_cases h : s / 9 < 9
  · rw [if_pos h, getD_replicate]
    split <;> rfl
  · rw [if_neg h]
    rfl

/-- C2: with every digit draw a permutation of 1..9 (the modelled
`shuffleArray`), `generateBoard` always succeeds on the empty grid, and
the returned 9×9 grid is a complete valid Sudoku solution: every row,
every column and every 3×3 box contains each digit 1..9 exactly once. -/
theorem generateBoard_valid (rand : Nat → List Nat)
    (hperm : ∀ m, (rand m).Perm digitsL) :
    (solveSudokuF 82 rand 0 (List.replicate 9 (List.replicate 9 0))).1 = true ∧
    ∀ u ∈ unitlist, ∀ dg, 1 ≤ dg → dg ≤ 9 →
      (u.map (boardCell (generateBoard rand))).count dg = 1 := by
  have hshape0 : boardShape (List.replicate 9 (List.replicate 9 0)) := by
    constructor
    · simp
    · intro row hrow
      rw [List.eq_of_mem_replicate hrow]
      simp
  have hagree0 : agreesOn (List.replicate 9 (List.replicate 9 0)) solvedBase :=
    fun s _ => Or.inl (zeroBoard_cell s)
  have hcnt0 : emptyCount (List.replicate 9 (List.replicate 9 0)) < 82 := by
    have := List.countP_le_length
      (fun s => boardCell (List.replicate 9 (List.replicate 9 0)) s == 0)
      (l := List.range 81)
    unfold emptyCount
    simp only [List.length_range] at this
    omega
  have hsucc := solveSudokuF_success 82 rand hperm _ 0 hshape0 hagree0 hcnt0
  refine ⟨hsucc, ?_⟩
  rcases hres : solveSudokuF 82 rand 0 (List.replicate 9 (List.replicate 9 0))
    with ⟨bl, b', k'⟩
  have hbl : bl = true := by
    rw [hres] at hsucc
    exact hsucc
  subst hbl
  have hnc0 : noConf (List.replicate 9 (List.replicate 9 0)) := by
    intro u _ s1 _ s2 _ _ hnz _
    exact absurd (zeroBoard_cell s1) hnz
  have hle0 : cellsLe9 (List.replicate 9 (List.replicate 9 0)) := by
    intro s _
    rw [zeroBoard_cell s]
    omega
  have hsound := (solveSudokuF_sound 82 rand hperm).1 0 _ b' k' hres
    ⟨hshape0, hnc0, hle0⟩
  have hgen : generateBoard rand = b' := by
    unfold generateBoard
    rw [hres]
  rw [hgen]
  intro u hu dg h1 h9
  exact unit_count_one b' hsound.2 hsound.1.2.2 hsound.1.2.1 u hu dg h1 h9

/-- Witness for C2 with the identity (unshuffled) digit order. -/
theorem generateBoard_valid_witness :
    (∀ m : Nat, (digitsL).Perm digitsL) ∧
    ((solveSudokuF 82 (fun _ => digitsL) 0
        (List.replicate 9 (List.replicate 9 0))).1 = true ∧
      ∀ u ∈ unitlist, ∀ dg, 1 ≤ dg → dg ≤ 9 →
        (u.map (boardCell (generateBoard (fun _ => digitsL)))).count dg = 1) :=
  ⟨fun _ => List.Perm.refl digitsL,
    generateBoard_valid (fun _ => digitsL) (fun _ => List.Perm.refl digitsL)⟩

theorem removalLoopH_frame :
    ∀ (removals : List Nat) (difficulty : Nat) (h : Heap) (ref : List Nat)
      (removed n : Nat), (∀ i ∈ ref, n ≤ i) → (∀ s ∈ removals, s < 81) →
      ref.length = 9 → ∀ j, j < n →
      ((removalLoopH removals difficulty h ref removed).1).getD j []
        = h.getD j [] := by
  intro removals
  induction removals with
  | nil =>
    intro difficulty h ref removed n _ _ _ j _
    simp [removalLoopH]
  | cons s rest ih =>
    intro difficulty h ref removed n href hord hlen j hj
    have hs81 : s < 81 := hord s (List.mem_cons_self s rest)
    have hr9 : s / 9 < ref.length := by rw [hlen]; omega
    have haddr : n ≤ ref.getD (s / 9) 0 :=
      href (ref.getD (s / 9) 0) (getD_mem ref (s / 9) 0 hr9)
    have hne : ref.getD (s / 9) 0 ≠ j := by omega
    have hset1 : ∀ (hh : Heap) (v : Nat),
        (setCellH hh ref (s / 9) (s % 9) v).getD j [] = hh.getD j [] := by
      intro hh v
      unfold setCellH
      exact getD_set_ne [] hh _ j _ hne
    have hih := fun (hh : Heap) (rm : Nat) => ih difficulty hh ref rm n href
      (fun x hx => hord x (List.mem_cons.2 (Or.inr hx))) hlen j hj
    simp only [removalLoopH]
    by_cases hc0 : cellGet (readBoard h ref) (s / 9) (s % 9) = 0
    · rw [if_pos hc0]
      exact hih h removed
    · rw [if_neg hc0]
      by_cases hcnt : (countSolutionsH (setCellH h ref (s / 9) (s % 9) 0)
          ref 2).2 ≠ 1
      · simp only [if_pos hcnt]
        by_cases hbr : (81 - ((removed + 1 - 1 : Nat) : Int)) ≤
            81 - (difficulty : Int)
        · rw [if_pos hbr]
          exact (hset1 _ _).trans (hset1 _ _)
        · rw [if_neg hbr]
          by_cases hd : removed + 1 - 1 ≥ difficulty
          · rw [if_pos hd]
            exact (hset1 _ _).trans (hset1 _ _)
          · rw [if_neg hd]
            exact (hih _ _).trans ((hset1 _ _).trans (hset1 _ _))
      · simp only [if_neg hcnt]
        by_cases hbr : (81 - ((removed + 1 : Nat) : Int)) ≤
            81 - (difficulty : Int)
        · rw [if_pos hbr]
          exact hset1 _ _
        · rw [if_neg hbr]
          by_cases hd : removed + 1 ≥ difficulty
          · rw [if_pos hd]
            exact hset1 _ _
          · rw [if_neg hd]
            exact (hih _ _).trans (hset1 _ _)

/-- C9: `createPuzzle` never mutates the caller's `solvedBoard`: every
row the caller's reference points at reads the same after the call
(all writes hit the freshly allocated copy), and `countSolutions`
returns its heap unchanged (the board is only dereferenced). -/
theorem createPuzzle_no_mutation (h : Heap) (solvedRef removals : List Nat)
    (difficulty maxAttempts : Nat)
    (href : ∀ i ∈ solvedRef, i < h.length) (hlen : solvedRef.length = 9)
    (hord : ∀ s ∈ removals, s < 81) :
    readBoard (createPuzzleH h solvedRef removals difficulty maxAttempts).1
        solvedRef = readBoard h solvedRef ∧
    ∀ (h2 : Heap) (ref : List Nat) (limit : Nat),
      (countSolutionsH h2 ref limit).1 = h2 := by
  refine ⟨?_, fun _ _ _ => rfl⟩
  have hres : (createPuzzleH h solvedRef removals difficulty maxAttempts).1 =
      (removalLoopH removals difficulty (h ++ readBoard h solvedRef)
        (List.range' h.length solvedRef.length) 0).1 := by
    simp only [createPuzzleH, copyBoard, readBoard]
    split <;> rfl
  rw [hres]
  unfold readBoard
  refine List.map_congr_left ?_
  intro i hi
  have hin : i < h.length := href i hi
  have hrefhi : ∀ x ∈ List.range' h.length solvedRef.length, h.length ≤ x := by
    intro x hx
    exact (List.mem_range'_1.1 hx).1
  rw [removalLoopH_frame removals difficulty _ _ 0 h.length hrefhi hord
    (by simp [hlen]) i hin]
  exact List.getD_append h (readBoard h solvedRef) [] i hin

/-- Witness for C9 on a concrete nine-row heap. -/
theorem createPuzzle_no_mutation_witness :
    (∀ i ∈ List.range 9, i < (List.replicate 9 ([1] : List Nat)).length) ∧
    (List.range 9).length = 9 ∧ (∀ s ∈ ([] : List Nat), s < 81) ∧
    (readBoard
        (createPuzzleH (List.replicate 9 [1]) (List.range 9) [] 45 100).1
        (List.range 9) = readBoard (List.replicate 9 [1]) (List.range 9) ∧
      ∀ (h2 : Heap) (ref : List Nat) (limit : Nat),
        (countSolutionsH h2 ref limit).1 = h2) :=
  ⟨by decide, by decide, by decide,
    createPuzzle_no_mutation (List.replicate 9 [1]) (List.range 9) [] 45 100
      (by decide) (by decide) (by decide)⟩

end Sudoku
